import Mathlib

/-!
Verification development for a Sudoku CSP solver (`ac3.py`).

The solver operates on a mutable 9×9 store of per-cell candidate sets
(Python sets of digits).  Following the spec's design note §9 ("use an
explicitly ordered container, e.g. a sorted array over 1–9"), a domain is
embedded as a `List ℕ`; a set is a sorted duplicate-free list, and set
operations (`remove`, `add`, `set(...)`) are embedded as order-preserving
list operations.  The store is a total function from cells to domains;
mutation is embedded as explicit state passing with pointwise update.

Worklist and search loops are embedded with explicit fuel returning
`Option`; sufficiency of the computed fuel bounds is proved separately,
so `none` never arises for the exported entry points.
-/

set_option maxRecDepth 10000

namespace AC3

/-- A cell is a (row, col) coordinate pair; valid coordinates are in [0,8]. -/
abbrev Cell := ℕ × ℕ

/-- The 81 cells of the grid in row-major scan order. -/
def cells : List Cell := (List.range 9).flatMap (fun r => (List.range 9).map (fun c => (r, c)))

/-- Two coordinates share a row, a column, or a 3×3 box. -/
def sameUnit (a b : Cell) : Prop :=
  a.1 = b.1 ∨ a.2 = b.2 ∨ (a.1 / 3 = b.1 / 3 ∧ a.2 / 3 = b.2 / 3)

instance sameUnit.dec (a b : Cell) : Decidable (sameUnit a b) := by
  unfold sameUnit; exact inferInstance

/-- Modelled from the spec: `csp.neighbors` is built by `csp.py`, which is not
in `src/`.  Spec §2/§4.1: a static mapping from each cell to its row, column
and 3×3-box peers, the cell itself excluded. -/
def neighbors (a : Cell) : List Cell :=
  cells.filter (fun b => decide (b ≠ a ∧ sameUnit a b))

/-- The domain store: each cell's current candidate list (a set, represented
as a sorted duplicate-free list). -/
def Store := Cell → List ℕ

/-- Pointwise store update (destructive assignment `csp.domains[r][c] = d`). -/
def setD (ds : Store) (c : Cell) (d : List ℕ) : Store :=
  fun c' => if c' = c then d else ds c'

/-- Python `set.add`: insert a value, keeping the sorted-set representation. -/
def setAdd (d : List ℕ) (v : ℕ) : List ℕ :=
  if v ∈ d then d else d.orderedInsert (· ≤ ·) v

/-- Python `set(lst)`: the set of elements of a list, in canonical sorted form. -/
def listToSet (l : List ℕ) : List ℕ := l.foldl setAdd []

/-- The loop body of `revise` (ac3.py lines 67-76): iterate over a copy of
Xi's domain, and remove each value that the (singleton) domain of Xj forces
out, recording whether anything was removed. -/
def reviseList (di dj : List ℕ) : Bool × List ℕ :=
  di.foldl (fun acc v => if dj.length = 1 ∧ v ∈ dj then (true, acc.2.erase v) else acc)
    (false, di)

/-- `revise(csp, xi, xj)` (ac3.py lines 56-78): prune Xi's domain of any value
forced out by Xj; return whether Xi's domain changed, together with the
mutated store. -/
def revise (ds : Store) (xi xj : Cell) : Bool × Store :=
  let r := reviseList (ds xi) (ds xj)
  (r.1, setD ds xi r.2)

/-- Modelled from the spec: `csp.get_all_arcs` is defined in `csp.py`, which
is not in `src/`.  Spec §3 "Arc": the initial worklist contains, for every
cell Xi and every neighbor Xj of Xi, the ordered arc (Xi, Xj). -/
def get_all_arcs : List (Cell × Cell) :=
  cells.flatMap (fun xi => (neighbors xi).map (fun xj => (xi, xj)))

/-- The arcs pushed after Xi's domain changed while revising against Xj
(ac3.py lines 31-37): `(xk, xi)` for every neighbor xk of xi other than xj. -/
def arcsFor (xi xj : Cell) : List (Cell × Cell) :=
  ((neighbors xi).filter (fun xk => decide (xk ≠ xj))).map (fun xk => (xk, xi))

/-- `all(len(csp.domains[row][col]) == 1 for ...)` (ac3.py line 40). -/
def allSingletonB (ds : Store) : Bool :=
  cells.all (fun c => (ds c).length == 1)

/-- The AC-3 worklist loop (ac3.py lines 14-51), with explicit fuel.
Pops the front arc, revises, fails on an emptied domain, re-enqueues the
affected arcs on a change, and on an empty queue reports whether every
domain is a singleton. -/
def ac3F : ℕ → List (Cell × Cell) → Store → Option (Bool × Store)
  | 0, _, _ => none
  | _ + 1, [], ds => some (allSingletonB ds, ds)
  | fuel + 1, (xi, xj) :: q, ds =>
    let r := revise ds xi xj
    if r.1 then
      if r.2 xi = [] then some (false, r.2)
      else ac3F fuel (q ++ arcsFor xi xj) r.2
    else ac3F fuel q ds

/-- Total size of the store: the sum of all 81 domain sizes. -/
def totalSize (ds : Store) : ℕ := (cells.map (fun c => (ds c).length)).sum

/-- Fuel bound for the AC-3 worklist: each popped arc either shrinks some
domain (re-enqueuing at most 81 arcs) or shortens the queue. -/
def ac3Fuel (ds : Store) (q : List (Cell × Cell)) : ℕ :=
  100 * totalSize ds + q.length + 1

/-- `ac3(csp)` (ac3.py lines 8-51): run the worklist to quiescence starting
from all arcs, returning the success flag and the mutated store. -/
def ac3 (ds : Store) : Option (Bool × Store) :=
  ac3F (ac3Fuel ds get_all_arcs) get_all_arcs ds

/-- `count_constraints(csp, row, col, value)` (ac3.py lines 102-118): count
the neighbors of (row, col) whose domain has more than one value and
contains `value`. -/
def count_constraints (ds : Store) (row col value : ℕ) : ℕ :=
  (neighbors (row, col)).foldl
    (fun count nb => if 1 < (ds nb).length ∧ value ∈ ds nb then count + 1 else count) 0

/-- The LCV comparison used to embed Python's stable `sorted(domain, key=...)`
over the ascending enumeration of the set: ascending constraint score, ties
broken by ascending value (spec §4.4/§9 deterministic tie-break). -/
def lcvLE (ds : Store) (row col : ℕ) (a b : ℕ) : Prop :=
  count_constraints ds row col a < count_constraints ds row col b ∨
    (count_constraints ds row col a = count_constraints ds row col b ∧ a ≤ b)

instance lcvLE.dec (ds : Store) (row col : ℕ) : DecidableRel (lcvLE ds row col) := by
  unfold lcvLE; exact fun a b => inferInstance

/-- `order_domain_values(csp, row, col)` (ac3.py lines 94-97): the cell's
candidate values sorted ascending by constraint score. -/
def order_domain_values (ds : Store) (row col : ℕ) : List ℕ :=
  (ds (row, col)).insertionSort (lcvLE ds row col)

/-- The neighbor scan of `forward_check` (ac3.py lines 130-149): remove
`value` from each neighbor's domain that contains it, recording the
removals, and stop with failure as soon as a domain becomes empty. -/
def fcAux (value : ℕ) : List Cell → Store → Bool × List (Cell × ℕ) × Store
  | [], ds => (true, [], ds)
  | n :: rest, ds =>
    if value ∈ ds n then
      let d' := (ds n).erase value
      let ds' := setD ds n d'
      if d' = [] then (false, [(n, value)], ds')
      else
        let r := fcAux value rest ds'
        (r.1, (n, value) :: r.2.1, r.2.2)
    else fcAux value rest ds

/-- `forward_check(csp, row, col, value)` (ac3.py lines 124-149). -/
def forward_check (ds : Store) (row col value : ℕ) : Bool × List (Cell × ℕ) × Store :=
  fcAux value (neighbors (row, col)) ds

/-- `restore_domains(csp, removed)` (ac3.py lines 154-160): re-add each
recorded value to the domain it was removed from. -/
def restore_domains (ds : Store) (removed : List (Cell × ℕ)) : Store :=
  removed.foldl (fun ds p => setD ds p.1 (setAdd (ds p.1) p.2)) ds

/-- `is_valid(csp, row, col, value)` (ac3.py lines 236-250): no neighbor has
a singleton domain holding exactly `value`. -/
def is_valid (ds : Store) (row col value : ℕ) : Bool :=
  (neighbors (row, col)).all (fun nb => !decide ((ds nb).length = 1 ∧ value ∈ ds nb))

/-- The scan of `find_empty_cell` (ac3.py lines 216-229), carrying the best
cell found so far with its domain size (`None` plays `float('inf')`). -/
def fecAux (ds : Store) : List Cell → Option (Cell × ℕ) → Option (Cell × ℕ)
  | [], best => best
  | c :: rest, best =>
    let sz := (ds c).length
    fecAux ds rest
      (match best with
       | none => if 1 < sz then some (c, sz) else none
       | some b => if 1 < sz ∧ sz < b.2 then some (c, sz) else some b)

/-- `find_empty_cell(sudoku_csp)` (ac3.py lines 209-231): the first cell in
row-major order achieving the minimum domain size among sizes > 1. -/
def find_empty_cell (ds : Store) : Option Cell :=
  (fecAux ds cells none).map (·.1)

/-- One pass of the value loop of `backtrack` (ac3.py lines 178-204),
parametrized by the recursive call `rec`.  Mirrors the source: on a valid
value, assign the singleton, forward check, recurse on success; on any
failure reset the cell's domain from its *current* domain via
`order_domain_values` and undo the recorded removals before trying the
next value. -/
def btLoop (rec : Store → Option (Bool × Store)) (cell : Cell) :
    List ℕ → Store → Option (Bool × Store)
  | [], ds => some (false, ds)
  | v :: rest, ds =>
    if is_valid ds cell.1 cell.2 v then
      let ds1 := setD ds cell [v]
      let r := forward_check ds1 cell.1 cell.2 v
      if r.1 then
        match rec r.2.2 with
        | none => none
        | some (true, ds') => some (true, ds')
        | some (false, ds3) =>
          let ds4 := setD ds3 cell (listToSet (order_domain_values ds3 cell.1 cell.2))
          btLoop rec cell rest (restore_domains ds4 r.2.1)
      else
        let ds4 := setD r.2.2 cell (listToSet (order_domain_values r.2.2 cell.1 cell.2))
        btLoop rec cell rest (restore_domains ds4 r.2.1)
    else btLoop rec cell rest ds

/-- `backtrack(csp)` (ac3.py lines 165-204) with explicit fuel for the
recursion depth. -/
def backtrackF : ℕ → Store → Option (Bool × Store)
  | 0, _ => none
  | fuel + 1, ds =>
    match find_empty_cell ds with
    | none => some (true, ds)
    | some cell => btLoop (backtrackF fuel) cell (order_domain_values ds cell.1 cell.2) ds

/-- Number of cells with more than one candidate (each recursion level of
`backtrack` permanently assigns one of them before recursing). -/
def multiCount (ds : Store) : ℕ :=
  (cells.filter (fun c => decide (1 < (ds c).length))).length

/-- Fuel bound for the search: recursion depth is bounded by the number of
unassigned cells. -/
def btFuel (ds : Store) : ℕ := multiCount ds + 1

/-- `backtrack(csp)` at its sufficient fuel bound. -/
def backtrack (ds : Store) : Option (Bool × Store) :=
  backtrackF (btFuel ds) ds

/-- `main()` (ac3.py lines 252-268): run AC-3; if it did not report success,
fall back to the backtracking search.  The boolean is the reported outcome
("solved" vs "no solution found"). -/
def mainSolve (ds : Store) : Option (Bool × Store) :=
  match ac3 ds with
  | none => none
  | some (true, ds') => some (true, ds')
  | some (false, ds') => backtrack ds'

/-- `print_solution`'s per-cell rendering (ac3.py line 89): the digit of a
singleton domain, else the sentinel 0. -/
def digitOf (ds : Store) (c : Cell) : ℕ :=
  if (ds c).length = 1 then (ds c).headD 0 else 0

/-! ### Spec-side predicates -/

/-- The digits 1..9. -/
def digits : List ℕ := List.range' 1 9

/-- The rows, columns and 3×3 boxes, each as its list of nine cells. -/
def allUnits : List (List Cell) :=
  (List.range 9).map (fun r => (List.range 9).map (fun c => (r, c))) ++
    (List.range 9).map (fun c => (List.range 9).map (fun r => (r, c))) ++
      ((List.range 3).flatMap (fun br => (List.range 3).map (fun bc =>
        (List.range 3).flatMap (fun i => (List.range 3).map (fun j => (3 * br + i, 3 * bc + j))))))

/-- A digit assignment solves the grid when every row, column and box
contains each digit 1–9 exactly once. -/
def validAssign (g : Cell → ℕ) : Prop :=
  ∀ u ∈ allUnits, ∀ d ∈ digits, (u.map g).count d = 1

/-- Every cell's domain is a singleton. -/
def allSingleton (ds : Store) : Prop := ∀ c ∈ cells, (ds c).length = 1

/-- Every cell's domain is non-empty. -/
def allNE (ds : Store) : Prop := ∀ c ∈ cells, ds c ≠ []

/-- Well-formed store: each domain is a genuine set (no duplicate values),
as Python set domains always are. -/
def WF (ds : Store) : Prop := ∀ c ∈ cells, (ds c).Nodup

/-- Store `s` is a pointwise sub-store of `t`: each domain only lost values. -/
def subStore (s t : Store) : Prop := ∀ c : Cell, ∀ v ∈ s c, v ∈ t c

/-- The `revise` loop body once the neighbor's domain is the singleton `[u]`. -/
def revStep (u : ℕ) (acc : Bool × List ℕ) (x : ℕ) : Bool × List ℕ :=
  if x = u then (true, acc.2.erase u) else acc

/-! ### Queue well-formedness and the AC-3 measure -/

/-- Every queued arc joins a grid cell to one of its neighbors. -/
def WFq (q : List (Cell × Cell)) : Prop :=
  ∀ p ∈ q, p.1 ∈ cells ∧ p.2 ∈ neighbors p.1

/-! ### AC-3 soundness: at quiescence every arc is revise-consistent -/

/-- The arc (a, b) needs no revision: if b is decided, its value is not a
candidate of a. -/
def consistentArc (ds : Store) (a b : Cell) : Prop :=
  (ds b).length = 1 → ∀ v ∈ ds a, v ∉ ds b

/-- Worklist invariant: every neighbor arc is queued or already consistent. -/
def InvQ (q : List (Cell × Cell)) (ds : Store) : Prop :=
  ∀ a b : Cell, a ∈ cells → b ∈ neighbors a → (a, b) ∈ q ∨ consistentArc ds a b

/-! ### From singleton arc-consistent stores to valid grids -/

/-- All candidate values lie among the digits 1–9 (true of the §6 input
store: fixed cells hold their digit, blank cells a subset of 1–9). -/
def inDigits (ds : Store) : Prop := ∀ c ∈ cells, ∀ v ∈ ds c, v ∈ digits

/-- Sorted-set store invariant (Python set domains, ordered per spec §9). -/
def WFS (ds : Store) : Prop := ∀ c ∈ cells, (ds c).Sorted (· ≤ ·) ∧ (ds c).Nodup

instance lcvLE.total (ds : Store) (row col : ℕ) : IsTotal ℕ (lcvLE ds row col) := by
  constructor
  intro a b
  unfold lcvLE
  omega

instance lcvLE.transitive (ds : Store) (row col : ℕ) : IsTrans ℕ (lcvLE ds row col) := by
  constructor
  intro a b c hab hbc
  unfold lcvLE at hab hbc ⊢
  omega

/-! ### Counting unassigned cells -/

/-- Cells other than `cell` that still have more than one candidate. -/
def multiExcept (cell : Cell) (ds : Store) : ℕ :=
  cells.countP (fun c => decide (c ≠ cell ∧ 1 < (ds c).length))

/-! ### Concrete stores used as test vectors -/

/-- The §6 image of a grid whose 81 cells are all fixed to the digit 1:
every domain is the singleton {1}.  The grid is unsolvable (row conflicts). -/
def allOnes : Store := fun _ => [1]

/-- The blank grid: every cell may hold any digit. -/
def fullStore : Store := fun _ => [1, 2, 3, 4, 5, 6, 7, 8, 9]

/-- A fully solved valid grid (the standard shifted pattern), as a
singleton-domain store. -/
def solvedStore : Store := fun c => [(3 * c.1 + c.1 / 3 + c.2) % 9 + 1]

/-- A store on which the search fails after tentatively assigning a value:
(0,0) has candidates {1,2}; value 1 passes the neighbor check but the
recursion dies at cell (1,3) whose candidates {4,5} both conflict with its
fixed neighbors; value 2 conflicts with the fixed 2 at (0,8). -/
def c3Store : Store := fun c =>
  if c = (0, 0) then [1, 2]
  else if c = (1, 3) then [4, 5]
  else if c = (1, 4) then [4]
  else if c = (1, 5) then [5]
  else if c = (0, 8) then [2]
  else [9]

/-- A store where cell (4,4) has the unique minimal multi-value domain
(size 2), and an earlier cell (0,0) has a larger one (size 3). -/
def c6Store : Store := fun c =>
  if c = (4, 4) then [1, 2] else if c = (0, 0) then [1, 2, 3] else [5]

/-- A store where cell (0,0) has candidates {3,7}; 3 occurs in 4 multi-value
neighbor domains and 7 in exactly 1. -/
def c7Store : Store := fun c =>
  if c = (0, 0) then [3, 7]
  else if c = (0, 1) then [3, 4]
  else if c = (0, 2) then [3, 4]
  else if c = (1, 0) then [3, 4]
  else if c = (2, 0) then [3, 4]
  else if c = (1, 1) then [7, 8]
  else [9]

instance validAssign.dec (g : Cell → ℕ) : Decidable (validAssign g) := by
  unfold validAssign; exact inferInstance

instance allSingleton.dec (ds : Store) : Decidable (allSingleton ds) := by
  unfold allSingleton; exact inferInstance

instance allNE.dec (ds : Store) : Decidable (allNE ds) := by
  unfold allNE; exact inferInstance

instance WF.dec (ds : Store) : Decidable (WF ds) := by
  unfold WF; exact inferInstance

instance WFS.dec (ds : Store) : Decidable (WFS ds) := by
  unfold WFS
  have : ∀ l : List ℕ, Decidable (l.Sorted (· ≤ ·)) := fun l => List.decidableSorted l
  exact inferInstance

instance inDigits.dec (ds : Store) : Decidable (inDigits ds) := by
  unfold inDigits; exact inferInstance

/-! ### Grid lemmas -/

theorem mem_cells {p : Cell} : p ∈ cells ↔ p.1 < 9 ∧ p.2 < 9 := by
  obtain ⟨a, b⟩ := p
  simp [cells, List.mem_flatMap, List.mem_map, List.mem_range]

theorem cells_nodup : cells.Nodup := by decide

theorem cells_length : cells.length = 81 := by decide

theorem mem_neighbors {a b : Cell} :
    b ∈ neighbors a ↔ b ∈ cells ∧ b ≠ a ∧ sameUnit a b := by
  simp [neighbors, List.mem_filter]

theorem sameUnit_symm {a b : Cell} (h : sameUnit a b) : sameUnit b a := by
  rcases h with h | h | ⟨h1, h2⟩
  · exact Or.inl h.symm
  · exact Or.inr (Or.inl h.symm)
  · exact Or.inr (Or.inr ⟨h1.symm, h2.symm⟩)

theorem neighbors_symm {a b : Cell} (ha : a ∈ cells) (h : b ∈ neighbors a) :
    a ∈ neighbors b := by
  rcases mem_neighbors.mp h with ⟨hb, hne, hu⟩
  exact mem_neighbors.mpr ⟨ha, fun e => hne e.symm, sameUnit_symm hu⟩

theorem neighbors_ne {a b : Cell} (h : b ∈ neighbors a) : b ≠ a :=
  (mem_neighbors.mp h).2.1

theorem not_mem_neighbors_self (a : Cell) : a ∉ neighbors a := by
  intro h; exact neighbors_ne h rfl

theorem neighbors_sub_cells {a b : Cell} (h : b ∈ neighbors a) : b ∈ cells :=
  (mem_neighbors.mp h).1

theorem neighbors_nodup (a : Cell) : (neighbors a).Nodup :=
  cells_nodup.filter _

theorem neighbors_length_le (a : Cell) : (neighbors a).length ≤ 81 :=
  le_trans (List.length_filter_le _ _) (le_of_eq cells_length)

/-! ### setD / setAdd / listToSet lemmas -/

theorem setD_same (ds : Store) (c : Cell) (d : List ℕ) : setD ds c d c = d := by
  simp [setD]

theorem setD_other (ds : Store) {c c' : Cell} (d : List ℕ) (h : c' ≠ c) :
    setD ds c d c' = ds c' := by
  simp [setD, h]

theorem setAdd_ne_nil (d : List ℕ) (v : ℕ) : setAdd d v ≠ [] := by
  unfold setAdd
  by_cases h : v ∈ d
  · rw [if_pos h]; exact List.ne_nil_of_mem h
  · rw [if_neg h]
    cases d with
    | nil => simp [List.orderedInsert]
    | cons a t =>
      simp only [List.orderedInsert]
      by_cases hle : v ≤ a
      · rw [if_pos hle]; simp
      · rw [if_neg hle]; simp

theorem mem_setAdd {d : List ℕ} {v w : ℕ} : w ∈ setAdd d v ↔ w = v ∨ w ∈ d := by
  unfold setAdd
  by_cases h : v ∈ d
  · rw [if_pos h]
    constructor
    · exact Or.inr
    · rintro (rfl | hw)
      · exact h
      · exact hw
  · rw [if_neg h]
    exact List.mem_orderedInsert _

theorem setAdd_nodup {d : List ℕ} (hd : d.Nodup) (v : ℕ) : (setAdd d v).Nodup := by
  unfold setAdd
  by_cases h : v ∈ d
  · rw [if_pos h]; exact hd
  · rw [if_neg h]
    have : (d.orderedInsert (· ≤ ·) v).Perm (v :: d) := d.perm_orderedInsert _ v
    exact this.nodup_iff.mpr (List.nodup_cons.mpr ⟨h, hd⟩)

theorem mem_listToSet {l : List ℕ} {v : ℕ} : v ∈ listToSet l ↔ v ∈ l := by
  have key : ∀ (l acc : List ℕ), v ∈ l.foldl setAdd acc ↔ v ∈ acc ∨ v ∈ l := by
    intro l
    induction l with
    | nil => intro acc; simp
    | cons a t ih =>
      intro acc
      rw [List.foldl_cons, ih]
      constructor
      · rintro (h | h)
        · rcases mem_setAdd.mp h with rfl | h
          · exact Or.inr (List.mem_cons_self _ _)
          · exact Or.inl h
        · exact Or.inr (List.mem_cons_of_mem _ h)
      · rintro (h | h)
        · exact Or.inl (mem_setAdd.mpr (Or.inr h))
        · rcases List.mem_cons.mp h with rfl | h
          · exact Or.inl (mem_setAdd.mpr (Or.inl rfl))
          · exact Or.inr h
  rw [listToSet, key]; simp

theorem listToSet_nodup (l : List ℕ) : (listToSet l).Nodup := by
  have key : ∀ (l acc : List ℕ), acc.Nodup → (l.foldl setAdd acc).Nodup := by
    intro l
    induction l with
    | nil => intro acc h; exact h
    | cons a t ih => intro acc h; exact ih _ (setAdd_nodup h a)
  exact key l [] List.nodup_nil

theorem listToSet_ne_nil {l : List ℕ} (h : l ≠ []) : listToSet l ≠ [] := by
  obtain ⟨a, l', rfl⟩ := List.exists_cons_of_ne_nil h
  intro hc
  have : a ∈ listToSet (a :: l') := mem_listToSet.mpr (List.mem_cons_self _ _)
  rw [hc] at this
  exact List.not_mem_nil a this

/-! ### `reviseList` characterization -/

theorem reviseList_len_ne {di dj : List ℕ} (h : dj.length ≠ 1) :
    reviseList di dj = (false, di) := by
  unfold reviseList
  have key : ∀ (l : List ℕ) (acc : Bool × List ℕ),
      l.foldl (fun acc v => if dj.length = 1 ∧ v ∈ dj then (true, acc.2.erase v) else acc)
        acc = acc := by
    intro l
    induction l with
    | nil => intro acc; rfl
    | cons a t ih =>
      intro acc
      rw [List.foldl_cons, if_neg (fun hc => h hc.1)]
      exact ih acc
  exact key di (false, di)

theorem revFold_congr (u : ℕ) :
    ∀ (l : List ℕ) (acc : Bool × List ℕ),
      l.foldl (fun acc x => if [u].length = 1 ∧ x ∈ [u] then (true, acc.2.erase x) else acc)
        acc = l.foldl (revStep u) acc := by
  intro l
  induction l with
  | nil => intro acc; rfl
  | cons a t ih =>
    intro acc
    rw [List.foldl_cons, List.foldl_cons]
    by_cases h : a = u
    · subst h
      rw [if_pos (by simp), revStep, if_pos rfl]
      exact ih _
    · rw [if_neg (by simp [h]), revStep, if_neg h]
      exact ih _

theorem revFold_skip (u : ℕ) :
    ∀ (t : List ℕ) (b : Bool) (x : ℕ) (d : List ℕ), x ≠ u →
      t.foldl (revStep u) (b, x :: d) =
        ((t.foldl (revStep u) (b, d)).1, x :: (t.foldl (revStep u) (b, d)).2) := by
  intro t
  induction t with
  | nil => intro b x d hx; rfl
  | cons a t ih =>
    intro b x d hx
    by_cases ha : a = u
    · subst ha
      rw [List.foldl_cons, List.foldl_cons, revStep, if_pos rfl, revStep, if_pos rfl]
      have herase : (x :: d).erase a = x :: d.erase a :=
        List.erase_cons_tail (by simp [hx])
      rw [herase]
      exact ih _ _ _ hx
    · rw [List.foldl_cons, List.foldl_cons, revStep, if_neg ha, revStep, if_neg ha]
      exact ih _ _ _ hx

theorem revFold_main (u : ℕ) :
    ∀ (l : List ℕ) (b : Bool),
      l.foldl (revStep u) (b, l) =
        (b || decide (u ∈ l), l.filter (fun x => !decide (x = u))) := by
  intro l
  induction l with
  | nil => intro b; simp
  | cons x t ih =>
    intro b
    by_cases hx : x = u
    · subst hx
      rw [List.foldl_cons, revStep, if_pos rfl, List.erase_cons_head, ih true]
      simp
    · rw [List.foldl_cons, revStep, if_neg hx, revFold_skip u t b x t hx, ih b]
      simp [hx, Ne.symm hx]

theorem reviseList_singleton (u : ℕ) (di : List ℕ) :
    reviseList di [u] = (decide (u ∈ di), di.filter (fun x => !decide (x = u))) := by
  unfold reviseList
  rw [revFold_congr u di (false, di), revFold_main u di false]
  simp

theorem reviseList_fst {di dj : List ℕ} :
    (reviseList di dj).1 = true ↔ dj.length = 1 ∧ ∃ v ∈ di, v ∈ dj := by
  by_cases h : dj.length = 1
  · obtain ⟨u, rfl⟩ := List.length_eq_one.mp h
    rw [reviseList_singleton]
    simp [eq_comm]
  · rw [reviseList_len_ne h]
    simp [h]

theorem reviseList_snd {di dj : List ℕ} :
    (reviseList di dj).2 =
      if dj.length = 1 then di.filter (fun v => !decide (v ∈ dj)) else di := by
  by_cases h : dj.length = 1
  · obtain ⟨u, rfl⟩ := List.length_eq_one.mp h
    rw [reviseList_singleton, if_pos h]
    simp
  · rw [reviseList_len_ne h, if_neg h]

theorem mem_reviseList_snd {di dj : List ℕ} {v : ℕ} :
    v ∈ (reviseList di dj).2 ↔ v ∈ di ∧ ¬(dj.length = 1 ∧ v ∈ dj) := by
  rw [reviseList_snd]
  by_cases h : dj.length = 1
  · rw [if_pos h]
    simp [h, List.mem_filter]
  · rw [if_neg h]
    simp [h]

theorem reviseList_snd_subset {di dj : List ℕ} {v : ℕ}
    (h : v ∈ (reviseList di dj).2) : v ∈ di :=
  (mem_reviseList_snd.mp h).1

theorem reviseList_not_changed {di dj : List ℕ}
    (h : (reviseList di dj).1 = false) : (reviseList di dj).2 = di := by
  rw [reviseList_snd]
  by_cases h1 : dj.length = 1
  · rw [if_pos h1]
    rw [List.filter_eq_self]
    intro a ha
    by_contra hc
    have : a ∈ dj := by simpa using hc
    have : (reviseList di dj).1 = true := reviseList_fst.mpr ⟨h1, a, ha, this⟩
    rw [h] at this; exact Bool.false_ne_true this
  · exact if_neg h1

theorem reviseList_changed_length {di dj : List ℕ}
    (h : (reviseList di dj).1 = true) : (reviseList di dj).2.length < di.length := by
  obtain ⟨h1, v, hv, hvj⟩ := reviseList_fst.mp h
  rw [reviseList_snd, if_pos h1]
  apply List.length_filter_lt_length_iff_exists.mpr
  exact ⟨v, hv, by simpa using hvj⟩

theorem reviseList_nodup {di dj : List ℕ} (h : di.Nodup) :
    (reviseList di dj).2.Nodup := by
  rw [reviseList_snd]
  by_cases h1 : dj.length = 1
  · rw [if_pos h1]; exact h.filter _
  · rw [if_neg h1]; exact h

/-! ### `revise` lemmas -/

theorem revise_snd_other (ds : Store) (xi xj : Cell) {c : Cell} (h : c ≠ xi) :
    (revise ds xi xj).2 c = ds c := by
  simp [revise, setD, h]

theorem revise_snd_xi (ds : Store) (xi xj : Cell) :
    (revise ds xi xj).2 xi = (reviseList (ds xi) (ds xj)).2 := by
  simp [revise, setD]

theorem revise_subStore (ds : Store) (xi xj : Cell) : subStore (revise ds xi xj).2 ds := by
  intro c v hv
  by_cases h : c = xi
  · subst h
    rw [revise_snd_xi] at hv
    exact reviseList_snd_subset hv
  · rw [revise_snd_other ds xi xj h] at hv
    exact hv

theorem revise_fst_iff (ds : Store) (xi xj : Cell) :
    (revise ds xi xj).1 = true ↔ (ds xj).length = 1 ∧ ∃ v ∈ ds xi, v ∈ ds xj := by
  rw [show (revise ds xi xj).1 = (reviseList (ds xi) (ds xj)).1 from rfl]
  exact reviseList_fst

theorem revise_not_changed_store (ds : Store) (xi xj : Cell)
    (h : (revise ds xi xj).1 = false) : (revise ds xi xj).2 = ds := by
  have h2 : (reviseList (ds xi) (ds xj)).2 = ds xi := reviseList_not_changed h
  funext c
  by_cases hc : c = xi
  · subst hc; rw [revise_snd_xi, h2]
  · exact revise_snd_other ds xi xj hc

/-! ### Sub-store order -/

theorem subStore_refl (ds : Store) : subStore ds ds := fun _ _ h => h

theorem subStore_trans {a b c : Store} (h1 : subStore a b) (h2 : subStore b c) :
    subStore a c := fun cl v hv => h2 cl v (h1 cl v hv)

theorem WFq_get_all_arcs : WFq get_all_arcs := by
  intro p hp
  simp only [get_all_arcs, List.mem_flatMap, List.mem_map] at hp
  obtain ⟨xi, hxi, xj, hxj, rfl⟩ := hp
  exact ⟨hxi, hxj⟩

theorem WFq_tail {p : Cell × Cell} {q : List (Cell × Cell)} (h : WFq (p :: q)) : WFq q :=
  fun x hx => h x (List.mem_cons_of_mem _ hx)

theorem WFq_arcsFor {xi xj : Cell} (hxi : xi ∈ cells) : WFq (arcsFor xi xj) := by
  intro p hp
  simp only [arcsFor, List.mem_map, List.mem_filter] at hp
  obtain ⟨xk, ⟨hk, _⟩, rfl⟩ := hp
  exact ⟨neighbors_sub_cells hk, neighbors_symm hxi hk⟩

theorem WFq_append {q1 q2 : List (Cell × Cell)} (h1 : WFq q1) (h2 : WFq q2) :
    WFq (q1 ++ q2) := by
  intro p hp
  rcases List.mem_append.mp hp with h | h
  · exact h1 p h
  · exact h2 p h

theorem arcsFor_length_le (xi xj : Cell) : (arcsFor xi xj).length ≤ 81 := by
  unfold arcsFor
  rw [List.length_map]
  exact le_trans (List.length_filter_le _ _) (neighbors_length_le xi)

theorem totalSize_setD_lt {ds : Store} {c : Cell} {d : List ℕ} (hc : c ∈ cells)
    (hlt : d.length < (ds c).length) : totalSize (setD ds c d) < totalSize ds := by
  unfold totalSize
  apply List.sum_lt_sum
  · intro i _
    by_cases hi : i = c
    · subst hi; rw [setD_same]; exact le_of_lt hlt
    · rw [setD_other ds d hi]
  · exact ⟨c, hc, by rw [setD_same]; exact hlt⟩

theorem totalSize_revise_lt {ds : Store} {xi xj : Cell} (hxi : xi ∈ cells)
    (hch : (revise ds xi xj).1 = true) : totalSize (revise ds xi xj).2 < totalSize ds := by
  have hlen : (reviseList (ds xi) (ds xj)).2.length < (ds xi).length :=
    reviseList_changed_length hch
  exact totalSize_setD_lt hxi hlen

/-! ### AC-3: monotone shrink, outcome characterization, termination -/

theorem ac3F_subStore :
    ∀ (fuel : ℕ) (q : List (Cell × Cell)) (ds : Store) (r : Bool) (ds' : Store),
      ac3F fuel q ds = some (r, ds') → subStore ds' ds := by
  intro fuel
  induction fuel with
  | zero => intro q ds r ds' h; exact absurd h (by simp [ac3F])
  | succ n ih =>
    intro q ds r ds' h
    cases q with
    | nil =>
      simp only [ac3F, Option.some.injEq, Prod.mk.injEq] at h
      rw [← h.2]
      exact subStore_refl ds
    | cons p q' =>
      obtain ⟨xi, xj⟩ := p
      rw [ac3F] at h
      by_cases hch : (revise ds xi xj).1 = true
      · rw [if_pos hch] at h
        by_cases hemp : (revise ds xi xj).2 xi = []
        · rw [if_pos hemp] at h
          simp only [Option.some.injEq, Prod.mk.injEq] at h
          rw [← h.2]
          exact revise_subStore ds xi xj
        · rw [if_neg hemp] at h
          exact subStore_trans (ih _ _ _ _ h) (revise_subStore ds xi xj)
      · rw [if_neg hch] at h
        exact ih _ _ _ _ h

theorem allSingletonB_iff {ds : Store} : allSingletonB ds = true ↔ allSingleton ds := by
  unfold allSingletonB allSingleton
  rw [List.all_eq_true]
  constructor
  · intro h c hc; exact Nat.beq_eq_true_eq _ _ |>.mp (h c hc)
  · intro h c hc; exact Nat.beq_eq_true_eq _ _ |>.mpr (h c hc)

theorem ac3F_true_iff :
    ∀ (fuel : ℕ) (q : List (Cell × Cell)) (ds : Store) (r : Bool) (ds' : Store),
      WFq q → ac3F fuel q ds = some (r, ds') → (r = true ↔ allSingleton ds') := by
  intro fuel
  induction fuel with
  | zero => intro q ds r ds' _ h; exact absurd h (by simp [ac3F])
  | succ n ih =>
    intro q ds r ds' hwf h
    cases q with
    | nil =>
      simp only [ac3F, Option.some.injEq, Prod.mk.injEq] at h
      rw [← h.1, ← h.2]
      exact allSingletonB_iff
    | cons p q' =>
      obtain ⟨xi, xj⟩ := p
      have hxi : xi ∈ cells := (hwf (xi, xj) (List.mem_cons_self _ _)).1
      rw [ac3F] at h
      by_cases hch : (revise ds xi xj).1 = true
      · rw [if_pos hch] at h
        by_cases hemp : (revise ds xi xj).2 xi = []
        · rw [if_pos hemp] at h
          simp only [Option.some.injEq, Prod.mk.injEq] at h
          constructor
          · intro hr; rw [hr] at h; exact absurd h.1.symm (by simp)
          · intro hs
            exfalso
            have := hs xi hxi
            rw [← h.2, hemp] at this
            simp at this
        · rw [if_neg hemp] at h
          exact ih _ _ _ _ (WFq_append (WFq_tail hwf) (WFq_arcsFor hxi)) h
      · rw [if_neg hch] at h
        exact ih _ _ _ _ (WFq_tail hwf) h

theorem ac3F_isSome :
    ∀ (fuel : ℕ) (q : List (Cell × Cell)) (ds : Store),
      WFq q → 100 * totalSize ds + q.length < fuel → (ac3F fuel q ds).isSome = true := by
  intro fuel
  induction fuel with
  | zero => intro q ds _ h; omega
  | succ n ih =>
    intro q ds hwf hm
    cases q with
    | nil => simp [ac3F]
    | cons p q' =>
      obtain ⟨xi, xj⟩ := p
      have hxi : xi ∈ cells := (hwf (xi, xj) (List.mem_cons_self _ _)).1
      rw [ac3F]
      by_cases hch : (revise ds xi xj).1 = true
      · rw [if_pos hch]
        by_cases hemp : (revise ds xi xj).2 xi = []
        · rw [if_pos hemp]; simp
        · rw [if_neg hemp]
          apply ih _ _ (WFq_append (WFq_tail hwf) (WFq_arcsFor hxi))
          have h1 : totalSize (revise ds xi xj).2 < totalSize ds :=
            totalSize_revise_lt hxi hch
          have h2 : (q' ++ arcsFor xi xj).length ≤ q'.length + 81 := by
            rw [List.length_append]
            exact Nat.add_le_add_left (arcsFor_length_le xi xj) _
          simp only [List.length_cons] at hm
          omega
      · rw [if_neg hch]
        apply ih _ _ (WFq_tail hwf)
        simp only [List.length_cons] at hm
        omega

theorem ac3_isSome (ds : Store) : (ac3 ds).isSome = true := by
  unfold ac3 ac3Fuel
  exact ac3F_isSome _ _ _ WFq_get_all_arcs (by omega)

theorem InvQ_init (ds : Store) : InvQ get_all_arcs ds := by
  intro a b ha hb
  left
  simp only [get_all_arcs, List.mem_flatMap, List.mem_map]
  exact ⟨a, ha, b, hb, rfl⟩

theorem mem_revise_xi {ds : Store} {xi xj : Cell} {v : ℕ} :
    v ∈ (revise ds xi xj).2 xi ↔
      v ∈ ds xi ∧ ¬((ds xj).length = 1 ∧ v ∈ ds xj) := by
  rw [revise_snd_xi]; exact mem_reviseList_snd

theorem revise_false_consistent {ds : Store} {xi xj : Cell}
    (h : (revise ds xi xj).1 = false) : consistentArc ds xi xj := by
  intro hlen v hv hvj
  have : (revise ds xi xj).1 = true := (revise_fst_iff ds xi xj).mpr ⟨hlen, v, hv, hvj⟩
  rw [h] at this
  exact Bool.false_ne_true this

theorem InvQ_step_changed {q' : List (Cell × Cell)} {ds : Store} {xi xj : Cell}
    (hxj : xj ∈ neighbors xi) (hch : (revise ds xi xj).1 = true)
    (hinv : InvQ ((xi, xj) :: q') ds) :
    InvQ (q' ++ arcsFor xi xj) (revise ds xi xj).2 := by
  obtain ⟨hlen, _, _, _⟩ := (revise_fst_iff ds xi xj).mp hch
  have hne : xj ≠ xi := neighbors_ne hxj
  intro a b ha hb
  rcases hinv a b ha hb with hq | hcons
  · rcases List.mem_cons.mp hq with heq | hq'
    · right
      have hax : a = xi := congrArg Prod.fst heq
      have hbx : b = xj := congrArg Prod.snd heq
      subst hax; subst hbx
      intro _ v hv
      rw [revise_snd_other ds a b hne]
      rw [mem_revise_xi] at hv
      exact fun hvb => hv.2 ⟨hlen, hvb⟩
    · left
      exact List.mem_append_of_mem_left _ hq'
  · by_cases hbxi : b = xi
    · subst b
      by_cases haxj : a = xj
      · subst a
        right
        intro _ v hv hvb
        rw [revise_snd_other ds xi xj hne] at hv
        rw [mem_revise_xi] at hvb
        exact hvb.2 ⟨hlen, hv⟩
      · left
        apply List.mem_append_of_mem_right
        simp only [arcsFor, List.mem_map, List.mem_filter]
        exact ⟨a, ⟨neighbors_symm ha hb, by simp [haxj]⟩, rfl⟩
    · right
      intro hlen1 v hv
      rw [revise_snd_other ds xi xj hbxi] at hlen1
      rw [revise_snd_other ds xi xj hbxi]
      by_cases haxi : a = xi
      · subst haxi
        rw [mem_revise_xi] at hv
        exact hcons hlen1 v hv.1
      · rw [revise_snd_other ds xi xj haxi] at hv
        exact hcons hlen1 v hv

theorem ac3F_consistent :
    ∀ (fuel : ℕ) (q : List (Cell × Cell)) (ds ds' : Store),
      WFq q → InvQ q ds → ac3F fuel q ds = some (true, ds') →
        ∀ a ∈ cells, ∀ b ∈ neighbors a, consistentArc ds' a b := by
  intro fuel
  induction fuel with
  | zero => intro q ds ds' _ _ h; exact absurd h (by simp [ac3F])
  | succ n ih =>
    intro q ds ds' hwf hinv h
    cases q with
    | nil =>
      simp only [ac3F, Option.some.injEq, Prod.mk.injEq] at h
      rw [← h.2]
      intro a ha b hb
      rcases hinv a b ha hb with hq | hc
      · exact absurd hq (List.not_mem_nil _)
      · exact hc
    | cons p q' =>
      obtain ⟨xi, xj⟩ := p
      have hxi : xi ∈ cells := (hwf (xi, xj) (List.mem_cons_self _ _)).1
      have hxj : xj ∈ neighbors xi := (hwf (xi, xj) (List.mem_cons_self _ _)).2
      rw [ac3F] at h
      by_cases hch : (revise ds xi xj).1 = true
      · rw [if_pos hch] at h
        by_cases hemp : (revise ds xi xj).2 xi = []
        · rw [if_pos hemp] at h
          simp at h
        · rw [if_neg hemp] at h
          exact ih _ _ _ (WFq_append (WFq_tail hwf) (WFq_arcsFor hxi))
            (InvQ_step_changed hxj hch hinv) h
      · rw [if_neg hch] at h
        apply ih _ _ _ (WFq_tail hwf) _ h
        intro a b ha hb
        rcases hinv a b ha hb with hq | hc
        · rcases List.mem_cons.mp hq with heq | hq'
          · right
            have hax : a = xi := congrArg Prod.fst heq
            have hbx : b = xj := congrArg Prod.snd heq
            subst hax; subst hbx
            exact revise_false_consistent (by simpa using hch)
          · left; exact hq'
        · right; exact hc

theorem ac3_consistent {ds ds' : Store} (h : ac3 ds = some (true, ds')) :
    ∀ a ∈ cells, ∀ b ∈ neighbors a, consistentArc ds' a b :=
  ac3F_consistent _ _ _ _ WFq_get_all_arcs (InvQ_init ds) h

theorem units_mem_cells : ∀ u ∈ allUnits, ∀ a ∈ u, a ∈ cells := by decide

theorem units_sameUnit : ∀ u ∈ allUnits, ∀ a ∈ u, ∀ b ∈ u, a ≠ b → sameUnit a b := by decide

theorem units_nodup : ∀ u ∈ allUnits, u.Nodup := by decide

theorem units_length : ∀ u ∈ allUnits, u.length = 9 := by decide

theorem digits_nodup : digits.Nodup := by decide

theorem digits_length : digits.length = 9 := by decide

theorem singleton_digit {ds : Store} {a : Cell} (h : (ds a).length = 1) :
    ds a = [digitOf ds a] := by
  obtain ⟨x, hx⟩ := List.length_eq_one.mp h
  rw [hx]
  simp [digitOf, hx, h]

theorem sound_valid {ds : Store} (hs : allSingleton ds) (hr : inDigits ds)
    (hc : ∀ a ∈ cells, ∀ b ∈ neighbors a, consistentArc ds a b) :
    validAssign (digitOf ds) := by
  intro u hu d hd
  have hcell : ∀ a ∈ u, a ∈ cells := units_mem_cells u hu
  have hinj : ∀ x ∈ u, ∀ y ∈ u, digitOf ds x = digitOf ds y → x = y := by
    intro x hx y hy hf
    by_contra hne
    have hyx : y ∈ neighbors x :=
      mem_neighbors.mpr ⟨hcell y hy, fun e => hne e.symm, units_sameUnit u hu x hx y hy hne⟩
    have hcons := hc x (hcell x hx) y hyx
    have hx1 : ds x = [digitOf ds x] := singleton_digit (hs x (hcell x hx))
    have hy1 : ds y = [digitOf ds y] := singleton_digit (hs y (hcell y hy))
    have : digitOf ds x ∉ ds y := by
      apply hcons (hs y (hcell y hy))
      rw [hx1]; exact List.mem_cons_self _ _
    apply this
    rw [hy1, hf]
    exact List.mem_cons_self _ _
  have hnodup : (u.map (digitOf ds)).Nodup := (units_nodup u hu).map_on hinj
  have hsub : u.map (digitOf ds) ⊆ digits := by
    intro d' hd'
    obtain ⟨a, ha, rfl⟩ := List.mem_map.mp hd'
    apply hr a (hcell a ha)
    rw [singleton_digit (hs a (hcell a ha))]
    exact List.mem_cons_self _ _
  have hlen : digits.length ≤ (u.map (digitOf ds)).length := by
    rw [List.length_map, digits_length, units_length u hu]
  have hperm : (u.map (digitOf ds)).Perm digits :=
    (hnodup.subperm hsub).perm_of_length_le hlen
  rw [hperm.count_eq]
  exact List.count_eq_one_of_mem digits_nodup hd

theorem ac3_true_sound {ds ds' : Store} (hr : inDigits ds)
    (h : ac3 ds = some (true, ds')) :
    allSingleton ds' ∧ validAssign (digitOf ds') := by
  have hs : allSingleton ds' :=
    (ac3F_true_iff _ _ _ _ _ WFq_get_all_arcs h).mp rfl
  have hsub : subStore ds' ds := ac3F_subStore _ _ _ _ _ h
  have hr' : inDigits ds' := fun c hc v hv => hr c hc v (hsub c v hv)
  exact ⟨hs, sound_valid hs hr' (ac3_consistent h)⟩

/-! ### MRV scan characterization -/

theorem fecAux_none (ds : Store) :
    ∀ (l : List Cell) (best : Option (Cell × ℕ)),
      fecAux ds l best = none ↔ best = none ∧ ∀ c ∈ l, (ds c).length ≤ 1 := by
  intro l
  induction l with
  | nil =>
    intro best
    simp [fecAux]
  | cons c rest ih =>
    intro best
    cases best with
    | none =>
      simp only [fecAux]
      by_cases h : 1 < (ds c).length
      · rw [if_pos h, ih]
        constructor
        · rintro ⟨h1, _⟩; exact absurd h1 (by simp)
        · rintro ⟨_, h2⟩; exact absurd (h2 c (List.mem_cons_self _ _)) (by omega)
      · rw [if_neg h, ih]
        constructor
        · rintro ⟨h1, h2⟩
          refine ⟨by simp, ?_⟩
          intro x hx
          rcases List.mem_cons.mp hx with rfl | hx
          · omega
          · exact h2 x hx
        · rintro ⟨h1, h2⟩
          exact ⟨by simp, fun x hx => h2 x (List.mem_cons_of_mem _ hx)⟩
    | some b =>
      simp only [fecAux]
      constructor
      · intro h
        exfalso
        rcases (ih _).mp h with ⟨h1, _⟩
        by_cases hc : 1 < (ds c).length ∧ (ds c).length < b.2 <;> simp [hc] at h1
      · rintro ⟨h1, _⟩; exact absurd h1 (by simp)

theorem fecAux_some (ds : Store) :
    ∀ (l : List Cell) (best : Option (Cell × ℕ)) (A : Cell) (m : ℕ),
      fecAux ds l best = some (A, m) →
        (best = some (A, m) ∧ ∀ B ∈ l, 1 < (ds B).length → m ≤ (ds B).length) ∨
        (∃ l₁ l₂, l = l₁ ++ A :: l₂ ∧ m = (ds A).length ∧ 1 < m ∧
          (∀ b, best = some b → m < b.2) ∧
          (∀ B ∈ l₁, 1 < (ds B).length → m < (ds B).length) ∧
          (∀ B ∈ l₂, 1 < (ds B).length → m ≤ (ds B).length)) := by
  intro l
  induction l with
  | nil =>
    intro best A m h
    rw [fecAux] at h
    left
    exact ⟨h, by simp⟩
  | cons c rest ih =>
    intro best A m h
    cases best with
    | none =>
      simp only [fecAux] at h
      by_cases hc : 1 < (ds c).length
      · rw [if_pos hc] at h
        rcases ih _ A m h with ⟨heq, hall⟩ | ⟨l₁, l₂, heq, hm, hm1, hbest, h₁, h₂⟩
        · have hA : c = A := (Prod.mk.injEq _ _ _ _ ▸ Option.some.inj heq).1
          have hmm : (ds c).length = m := (Prod.mk.injEq _ _ _ _ ▸ Option.some.inj heq).2
          right
          refine ⟨[], rest, by simp [hA], by rw [← hA, hmm], by omega, by simp, by simp, ?_⟩
          intro B hB hB1
          exact hall B hB hB1
        · right
          have hlt : m < (ds c).length := hbest (c, (ds c).length) rfl
          refine ⟨c :: l₁, l₂, by rw [heq]; rfl, hm, hm1, by simp, ?_, h₂⟩
          intro B hB hB1
          rcases List.mem_cons.mp hB with rfl | hB
          · exact hlt
          · exact h₁ B hB hB1
      · rw [if_neg hc] at h
        rcases ih _ A m h with ⟨heq, _⟩ | ⟨l₁, l₂, heq, hm, hm1, _, h₁, h₂⟩
        · exact absurd heq (by simp)
        · right
          refine ⟨c :: l₁, l₂, by rw [heq]; rfl, hm, hm1, by simp, ?_, h₂⟩
          intro B hB hB1
          rcases List.mem_cons.mp hB with rfl | hB
          · omega
          · exact h₁ B hB hB1
    | some b =>
      simp only [fecAux] at h
      by_cases hc : 1 < (ds c).length ∧ (ds c).length < b.2
      · rw [if_pos hc] at h
        rcases ih _ A m h with ⟨heq, hall⟩ | ⟨l₁, l₂, heq, hm, hm1, hbest, h₁, h₂⟩
        · have hA : c = A := (Prod.mk.injEq _ _ _ _ ▸ Option.some.inj heq).1
          have hmm : (ds c).length = m := (Prod.mk.injEq _ _ _ _ ▸ Option.some.inj heq).2
          right
          refine ⟨[], rest, by simp [hA], by rw [← hA, hmm], by omega, ?_, by simp, ?_⟩
          · intro b' hb'
            cases Option.some.inj hb'
            omega
          · intro B hB hB1
            exact hall B hB hB1
        · right
          have hlt : m < (ds c).length := hbest (c, (ds c).length) rfl
          refine ⟨c :: l₁, l₂, by rw [heq]; rfl, hm, hm1, ?_, ?_, h₂⟩
          · intro b' hb'
            cases Option.some.inj hb'
            omega
          · intro B hB hB1
            rcases List.mem_cons.mp hB with rfl | hB
            · exact hlt
            · exact h₁ B hB hB1
      · rw [if_neg hc] at h
        rcases ih _ A m h with ⟨heq, hall⟩ | ⟨l₁, l₂, heq, hm, hm1, hbest, h₁, h₂⟩
        · left
          have hbm : b = (A, m) := Option.some.inj heq
          refine ⟨by rw [hbm], ?_⟩
          intro B hB hB1
          rcases List.mem_cons.mp hB with rfl | hB
          · have : ¬((ds B).length < b.2) := fun hlt => hc ⟨hB1, hlt⟩
            rw [hbm] at this
            omega
          · exact hall B hB hB1
        · right
          have hltb : m < b.2 := hbest b rfl
          refine ⟨c :: l₁, l₂, by rw [heq]; rfl, hm, hm1, ?_, ?_, h₂⟩
          · intro b' hb'
            cases Option.some.inj hb'
            exact hltb
          · intro B hB hB1
            rcases List.mem_cons.mp hB with rfl | hB
            · have : ¬((ds B).length < b.2) := fun hlt => hc ⟨hB1, hlt⟩
              omega
            · exact h₁ B hB hB1

theorem find_empty_cell_none_iff {ds : Store} :
    find_empty_cell ds = none ↔ ∀ c ∈ cells, (ds c).length ≤ 1 := by
  unfold find_empty_cell
  rw [Option.map_eq_none']
  rw [fecAux_none]
  simp

theorem find_empty_cell_some {ds : Store} {A : Cell} (h : find_empty_cell ds = some A) :
    ∃ l₁ l₂, cells = l₁ ++ A :: l₂ ∧ 1 < (ds A).length ∧
      (∀ B ∈ l₁, 1 < (ds B).length → (ds A).length < (ds B).length) ∧
      (∀ B ∈ l₂, 1 < (ds B).length → (ds A).length ≤ (ds B).length) := by
  unfold find_empty_cell at h
  rw [Option.map_eq_some'] at h
  obtain ⟨⟨A', m⟩, hfec, hA⟩ := h
  simp only at hA
  subst hA
  rcases fecAux_some ds cells none A' m hfec with ⟨heq, _⟩ | ⟨l₁, l₂, heq, hm, hm1, _, h₁, h₂⟩
  · exact absurd heq (by simp)
  · subst hm
    exact ⟨l₁, l₂, heq, hm1, h₁, h₂⟩

theorem find_empty_cell_some_mem {ds : Store} {A : Cell} (h : find_empty_cell ds = some A) :
    A ∈ cells ∧ 1 < (ds A).length := by
  obtain ⟨l₁, l₂, heq, hm1, _, _⟩ := find_empty_cell_some h
  exact ⟨heq ▸ List.mem_append_cons_self, hm1⟩

/-! ### Ordered-set operations: erase and re-insert -/

theorem orderedInsert_erase :
    ∀ (d : List ℕ), d.Sorted (· ≤ ·) → d.Nodup → ∀ v ∈ d,
      (d.erase v).orderedInsert (· ≤ ·) v = d := by
  intro d
  induction d with
  | nil => intro _ _ v hv; exact absurd hv (List.not_mem_nil v)
  | cons a t ih =>
    intro hs hd v hv
    by_cases hva : v = a
    · subst hva
      rw [List.erase_cons_head]
      cases t with
      | nil => rfl
      | cons b t' =>
        rw [List.orderedInsert, if_pos (List.rel_of_sorted_cons hs b (List.mem_cons_self _ _))]
    · have hvt : v ∈ t := by
        rcases List.mem_cons.mp hv with h | h
        · exact absurd h hva
        · exact h
      have herase : (a :: t).erase v = a :: t.erase v :=
        List.erase_cons_tail (by simp only [beq_iff_eq]; exact fun h => hva h.symm)
      rw [herase, List.orderedInsert]
      have hav : a ≤ v := List.rel_of_sorted_cons hs v hvt
      have : ¬(v ≤ a) := by
        intro hle
        exact hva (Nat.le_antisymm hle hav)
      rw [if_neg this, ih (List.sorted_cons.mp hs).2 (List.nodup_cons.mp hd).2 v hvt]

theorem setAdd_erase {d : List ℕ} (hs : d.Sorted (· ≤ ·)) (hd : d.Nodup) {v : ℕ}
    (hv : v ∈ d) : setAdd (d.erase v) v = d := by
  unfold setAdd
  have : v ∉ d.erase v := by
    intro hmem
    exact ((hd.mem_erase_iff).mp hmem).1 rfl
  rw [if_neg this]
  exact orderedInsert_erase d hs hd v hv

theorem setD_comm {ds : Store} {a b : Cell} (h : a ≠ b) (da db : List ℕ) :
    setD (setD ds a da) b db = setD (setD ds b db) a da := by
  funext c
  unfold setD
  by_cases hcb : c = b
  · subst hcb
    rw [if_pos rfl, if_neg (fun e => h e.symm), if_pos rfl]
  · by_cases hca : c = a
    · subst hca
      rw [if_neg hcb, if_pos rfl, if_pos rfl]
    · rw [if_neg hcb, if_neg hca, if_neg hca, if_neg hcb]

theorem restore_cons (ds : Store) (c : Cell) (v : ℕ) (t : List (Cell × ℕ)) :
    restore_domains ds ((c, v) :: t) =
      restore_domains (setD ds c (setAdd (ds c) v)) t := rfl

theorem restore_setD_comm :
    ∀ (rem : List (Cell × ℕ)) (ds : Store) (n : Cell) (d : List ℕ),
      (∀ p ∈ rem, p.1 ≠ n) →
        restore_domains (setD ds n d) rem = setD (restore_domains ds rem) n d := by
  intro rem
  induction rem with
  | nil => intro ds n d _; rfl
  | cons p t ih =>
    intro ds n d hp
    obtain ⟨c, v⟩ := p
    have hcn : c ≠ n := hp (c, v) (List.mem_cons_self _ _)
    rw [restore_cons, restore_cons]
    rw [setD_other ds d hcn]
    rw [setD_comm (fun e => hcn e.symm)]
    exact ih _ n d (fun q hq => hp q (List.mem_cons_of_mem _ hq))

/-! ### Pointwise behavior of the forward-check scan -/

theorem fcAux_untouched (value : ℕ) :
    ∀ (l : List Cell) (ds : Store) (c : Cell), c ∉ l →
      (fcAux value l ds).2.2 c = ds c := by
  intro l
  induction l with
  | nil => intro ds c _; rfl
  | cons n rest ih =>
    intro ds c hc
    have hcn : c ≠ n := fun e => hc (e ▸ List.mem_cons_self _ _)
    have hcr : c ∉ rest := fun h => hc (List.mem_cons_of_mem _ h)
    by_cases hmem : value ∈ ds n
    · by_cases hemp : (ds n).erase value = []
      · simp only [fcAux, if_pos hmem, if_pos hemp]
        exact setD_other ds _ hcn
      · simp only [fcAux, if_pos hmem, if_neg hemp]
        rw [ih _ c hcr]
        exact setD_other ds _ hcn
    · simp only [fcAux, if_neg hmem]
      exact ih _ c hcr

theorem fcAux_pointwise (value : ℕ) :
    ∀ (l : List Cell), l.Nodup → ∀ (ds : Store) (c : Cell),
      (fcAux value l ds).2.2 c = ds c ∨ (fcAux value l ds).2.2 c = (ds c).erase value := by
  intro l
  induction l with
  | nil => intro _ ds c; left; rfl
  | cons n rest ih =>
    intro hnd ds c
    have hn_rest : n ∉ rest := (List.nodup_cons.mp hnd).1
    have hrest : rest.Nodup := (List.nodup_cons.mp hnd).2
    by_cases hmem : value ∈ ds n
    · by_cases hemp : (ds n).erase value = []
      · simp only [fcAux, if_pos hmem, if_pos hemp]
        by_cases hcn : c = n
        · subst hcn; right; rw [setD_same]
        · left; exact setD_other ds _ hcn
      · simp only [fcAux, if_pos hmem, if_neg hemp]
        by_cases hcn : c = n
        · subst hcn
          right
          rw [fcAux_untouched value rest _ c hn_rest, setD_same]
        · rcases ih hrest (setD ds n ((ds n).erase value)) c with h | h
          · left; rw [h]; exact setD_other ds _ hcn
          · right; rw [h, setD_other ds _ hcn]
    · simp only [fcAux, if_neg hmem]
      exact ih hrest ds c

theorem fcAux_rem_entries (value : ℕ) :
    ∀ (l : List Cell) (ds : Store) (p : Cell × ℕ),
      p ∈ (fcAux value l ds).2.1 → p.1 ∈ l ∧ p.2 = value := by
  intro l
  induction l with
  | nil => intro ds p hp; exact absurd hp (List.not_mem_nil p)
  | cons n rest ih =>
    intro ds p hp
    by_cases hmem : value ∈ ds n
    · by_cases hemp : (ds n).erase value = []
      · simp only [fcAux, if_pos hmem, if_pos hemp] at hp
        rcases List.mem_cons.mp hp with h | h
        · subst h; exact ⟨List.mem_cons_self _ _, rfl⟩
        · exact absurd h (List.not_mem_nil p)
      · simp only [fcAux, if_pos hmem, if_neg hemp] at hp
        rcases List.mem_cons.mp hp with h | h
        · subst h; exact ⟨List.mem_cons_self _ _, rfl⟩
        · obtain ⟨h1, h2⟩ := ih _ p h
          exact ⟨List.mem_cons_of_mem _ h1, h2⟩
    · simp only [fcAux, if_neg hmem] at hp
      obtain ⟨h1, h2⟩ := ih _ p hp
      exact ⟨List.mem_cons_of_mem _ h1, h2⟩

theorem fcAux_true_ne (value : ℕ) :
    ∀ (l : List Cell) (ds : Store),
      (fcAux value l ds).1 = true → ∀ c : Cell, ds c ≠ [] →
        (fcAux value l ds).2.2 c ≠ [] := by
  intro l
  induction l with
  | nil => intro ds _ c hc; exact hc
  | cons n rest ih =>
    intro ds hok c hc
    by_cases hmem : value ∈ ds n
    · by_cases hemp : (ds n).erase value = []
      · simp only [fcAux, if_pos hmem, if_pos hemp] at hok
        exact absurd hok (by simp)
      · simp only [fcAux, if_pos hmem, if_neg hemp] at hok ⊢
        apply ih _ hok
        by_cases hcn : c = n
        · subst hcn; rw [setD_same]; exact hemp
        · rw [setD_other ds _ hcn]; exact hc
    · simp only [fcAux, if_neg hmem] at hok ⊢
      exact ih ds hok c hc

theorem fcAux_ne_or_rem (value : ℕ) :
    ∀ (l : List Cell) (ds : Store) (c : Cell), ds c ≠ [] →
      (fcAux value l ds).2.2 c ≠ [] ∨ (c, value) ∈ (fcAux value l ds).2.1 := by
  intro l
  induction l with
  | nil => intro ds c hc; left; exact hc
  | cons n rest ih =>
    intro ds c hc
    by_cases hmem : value ∈ ds n
    · by_cases hemp : (ds n).erase value = []
      · simp only [fcAux, if_pos hmem, if_pos hemp]
        by_cases hcn : c = n
        · subst hcn; right; exact List.mem_cons_self _ _
        · left; rw [setD_other ds _ hcn]; exact hc
      · simp only [fcAux, if_pos hmem, if_neg hemp]
        by_cases hcn : c = n
        · subst hcn; right; exact List.mem_cons_self _ _
        · have hc' : setD ds n ((ds n).erase value) c ≠ [] := by
            rw [setD_other ds _ hcn]; exact hc
          rcases ih _ c hc' with h | h
          · left; exact h
          · right; exact List.mem_cons_of_mem _ h
    · simp only [fcAux, if_neg hmem]
      exact ih ds c hc

/-! ### Restore: membership and non-emptiness -/

theorem restore_mono_mem :
    ∀ (rem : List (Cell × ℕ)) (ds : Store) (c : Cell) (v : ℕ),
      v ∈ ds c → v ∈ restore_domains ds rem c := by
  intro rem
  induction rem with
  | nil => intro ds c v hv; exact hv
  | cons p t ih =>
    intro ds c v hv
    obtain ⟨c', v'⟩ := p
    rw [restore_cons]
    apply ih
    by_cases hcc : c = c'
    · subst hcc
      rw [setD_same]
      exact mem_setAdd.mpr (Or.inr hv)
    · rw [setD_other ds _ hcc]
      exact hv

theorem restore_mem_of_rem :
    ∀ (rem : List (Cell × ℕ)) (ds : Store) (c : Cell) (v : ℕ),
      (c, v) ∈ rem → v ∈ restore_domains ds rem c := by
  intro rem
  induction rem with
  | nil => intro ds c v hv; exact absurd hv (List.not_mem_nil _)
  | cons p t ih =>
    intro ds c v hv
    obtain ⟨c', v'⟩ := p
    rw [restore_cons]
    rcases List.mem_cons.mp hv with h | h
    · have hc : c = c' := congrArg Prod.fst h
      have hvv : v = v' := congrArg Prod.snd h
      subst hc; subst hvv
      apply restore_mono_mem
      rw [setD_same]
      exact mem_setAdd.mpr (Or.inl rfl)
    · exact ih _ c v h

theorem restore_ne_nil {rem : List (Cell × ℕ)} {ds : Store} {c : Cell}
    (h : ds c ≠ [] ∨ ∃ v, (c, v) ∈ rem) : restore_domains ds rem c ≠ [] := by
  rcases h with h | ⟨v, hv⟩
  · obtain ⟨x, hx⟩ := List.exists_mem_of_ne_nil _ h
    exact List.ne_nil_of_mem (restore_mono_mem rem ds c x hx)
  · exact List.ne_nil_of_mem (restore_mem_of_rem rem ds c v hv)

theorem restore_mem_inv :
    ∀ (rem : List (Cell × ℕ)) (ds : Store) (c : Cell) (v : ℕ),
      v ∈ restore_domains ds rem c → v ∈ ds c ∨ (c, v) ∈ rem := by
  intro rem
  induction rem with
  | nil => intro ds c v hv; left; exact hv
  | cons p t ih =>
    intro ds c v hv
    obtain ⟨c', v'⟩ := p
    rw [restore_cons] at hv
    rcases ih _ c v hv with h | h
    · by_cases hcc : c = c'
      · subst hcc
        rw [setD_same] at h
        rcases mem_setAdd.mp h with rfl | h
        · right; exact List.mem_cons_self _ _
        · left; exact h
      · rw [setD_other ds _ hcc] at h
        left; exact h
    · right; exact List.mem_cons_of_mem _ h

theorem restore_nodup :
    ∀ (rem : List (Cell × ℕ)) (ds : Store) (c : Cell),
      (ds c).Nodup → (restore_domains ds rem c).Nodup := by
  intro rem
  induction rem with
  | nil => intro ds c h; exact h
  | cons p t ih =>
    intro ds c h
    obtain ⟨c', v'⟩ := p
    rw [restore_cons]
    apply ih
    by_cases hcc : c = c'
    · subst hcc
      rw [setD_same]
      exact setAdd_nodup h v'
    · rw [setD_other ds _ hcc]
      exact h

/-! ### Forward check / restore round trip -/

theorem setD_self (ds : Store) (c : Cell) : setD ds c (ds c) = ds := by
  funext c'
  unfold setD
  by_cases h : c' = c
  · subst h; rw [if_pos rfl]
  · rw [if_neg h]

theorem setD_setD (ds : Store) (c : Cell) (d1 d2 : List ℕ) :
    setD (setD ds c d1) c d2 = setD ds c d2 := by
  funext c'
  unfold setD
  by_cases h : c' = c <;> simp [h]

theorem fcAux_roundtrip (value : ℕ) :
    ∀ (l : List Cell), l.Nodup → ∀ ds : Store,
      (∀ c ∈ l, (ds c).Sorted (· ≤ ·) ∧ (ds c).Nodup) →
        restore_domains (fcAux value l ds).2.2 (fcAux value l ds).2.1 = ds := by
  intro l
  induction l with
  | nil => intro _ ds _; rfl
  | cons n rest ih =>
    intro hnd ds hws
    have hn_rest : n ∉ rest := (List.nodup_cons.mp hnd).1
    have hrest : rest.Nodup := (List.nodup_cons.mp hnd).2
    have hwn := hws n (List.mem_cons_self _ _)
    by_cases hmem : value ∈ ds n
    · by_cases hemp : (ds n).erase value = []
      · simp only [fcAux, if_pos hmem, if_pos hemp]
        rw [restore_cons]
        show restore_domains
          (setD (setD ds n ((ds n).erase value)) n
            (setAdd (setD ds n ((ds n).erase value) n) value)) [] = ds
        rw [setD_same, setD_setD, setAdd_erase hwn.1 hwn.2 hmem, setD_self]
        rfl
      · simp only [fcAux, if_pos hmem, if_neg hemp]
        rw [restore_cons]
        rw [fcAux_untouched value rest _ n hn_rest, setD_same]
        rw [setAdd_erase hwn.1 hwn.2 hmem]
        rw [restore_setD_comm _ _ n (ds n) (by
          intro p hp
          have hmem2 := (fcAux_rem_entries value rest _ p hp).1
          intro e
          rw [e] at hmem2
          exact hn_rest hmem2)]
        rw [ih hrest _ (by
          intro c hc
          have hcn : c ≠ n := by
            intro e
            rw [e] at hc
            exact hn_rest hc
          rw [setD_other ds _ hcn]
          exact hws c (List.mem_cons_of_mem _ hc))]
        rw [setD_setD, setD_self]
    · simp only [fcAux, if_neg hmem]
      exact ih hrest ds (fun c hc => hws c (List.mem_cons_of_mem _ hc))

theorem forward_check_roundtrip {ds : Store} (hws : WFS ds) (row col value : ℕ) :
    restore_domains (forward_check ds row col value).2.2
      (forward_check ds row col value).2.1 = ds := by
  unfold forward_check
  exact fcAux_roundtrip value (neighbors (row, col)) (neighbors_nodup _) ds
    (fun c hc => hws c (neighbors_sub_cells hc))

/-! ### LCV ordering lemmas -/

theorem odv_perm (ds : Store) (row col : ℕ) :
    (order_domain_values ds row col).Perm (ds (row, col)) :=
  List.perm_insertionSort _ _

theorem mem_odv {ds : Store} {row col v : ℕ} :
    v ∈ order_domain_values ds row col ↔ v ∈ ds (row, col) :=
  (odv_perm ds row col).mem_iff

theorem odv_ne_nil {ds : Store} {row col : ℕ} (h : ds (row, col) ≠ []) :
    order_domain_values ds row col ≠ [] := by
  intro hc
  apply h
  have := (odv_perm ds row col).length_eq
  rw [hc] at this
  exact List.eq_nil_of_length_eq_zero this.symm

theorem count_constraints_eq (ds : Store) (row col value : ℕ) :
    count_constraints ds row col value =
      ((neighbors (row, col)).filter
        (fun nb => decide (1 < (ds nb).length ∧ value ∈ ds nb))).length := by
  unfold count_constraints
  have key : ∀ (l : List Cell) (acc : ℕ),
      l.foldl (fun count nb => if 1 < (ds nb).length ∧ value ∈ ds nb then count + 1 else count)
        acc =
      acc + (l.filter (fun nb => decide (1 < (ds nb).length ∧ value ∈ ds nb))).length := by
    intro l
    induction l with
    | nil => intro acc; simp
    | cons n rest ihl =>
      intro acc
      rw [List.foldl_cons]
      by_cases h : 1 < (ds n).length ∧ value ∈ ds n
      · rw [if_pos h, ihl, List.filter_cons_of_pos (by simpa using h)]
        simp only [List.length_cons]
        omega
      · rw [if_neg h, ihl, List.filter_cons_of_neg (by simpa using h)]
  rw [key]
  omega

theorem odv_sorted (ds : Store) (row col : ℕ) :
    (order_domain_values ds row col).Sorted (lcvLE ds row col) :=
  List.sorted_insertionSort _ _

theorem odv_pairwise_score (ds : Store) (row col : ℕ) :
    (order_domain_values ds row col).Pairwise
      (fun a b => count_constraints ds row col a ≤ count_constraints ds row col b) := by
  apply (odv_sorted ds row col).imp
  intro a b hab
  unfold lcvLE at hab
  omega

/-! ### Forward-check corollaries -/

theorem fcAux_rem_mem (value : ℕ) :
    ∀ (l : List Cell) (ds : Store) (p : Cell × ℕ),
      p ∈ (fcAux value l ds).2.1 → p.2 ∈ ds p.1 := by
  intro l
  induction l with
  | nil => intro ds p hp; exact absurd hp (List.not_mem_nil p)
  | cons n rest ih =>
    intro ds p hp
    by_cases hmem : value ∈ ds n
    · by_cases hemp : (ds n).erase value = []
      · simp only [fcAux, if_pos hmem, if_pos hemp] at hp
        rcases List.mem_cons.mp hp with h | h
        · subst h; exact hmem
        · exact absurd h (List.not_mem_nil p)
      · simp only [fcAux, if_pos hmem, if_neg hemp] at hp
        rcases List.mem_cons.mp hp with h | h
        · subst h; exact hmem
        · have := ih _ p h
          by_cases hpn : p.1 = n
          · rw [hpn] at this ⊢
            rw [setD_same] at this
            exact List.mem_of_mem_erase this
          · rwa [setD_other ds _ hpn] at this
    · simp only [fcAux, if_neg hmem] at hp
      exact ih _ p hp

theorem fc_pointwise (ds : Store) (row col value : ℕ) (c : Cell) :
    (forward_check ds row col value).2.2 c = ds c ∨
      (forward_check ds row col value).2.2 c = (ds c).erase value :=
  fcAux_pointwise value (neighbors (row, col)) (neighbors_nodup _) ds c

theorem fc_subStore (ds : Store) (row col value : ℕ) :
    subStore (forward_check ds row col value).2.2 ds := by
  intro c v hv
  rcases fc_pointwise ds row col value c with h | h
  · rwa [h] at hv
  · rw [h] at hv
    exact List.mem_of_mem_erase hv

theorem fc_nodup (ds : Store) (row col value : ℕ) (c : Cell) (h : (ds c).Nodup) :
    ((forward_check ds row col value).2.2 c).Nodup := by
  rcases fc_pointwise ds row col value c with he | he
  · rwa [he]
  · rw [he]; exact h.erase value

theorem fc_rem_cells {ds : Store} {row col value : ℕ} {p : Cell × ℕ}
    (h : p ∈ (forward_check ds row col value).2.1) :
    p.1 ∈ neighbors (row, col) ∧ p.2 = value :=
  fcAux_rem_entries value _ ds p h

theorem fc_rem_mem {ds : Store} {row col value : ℕ} {p : Cell × ℕ}
    (h : p ∈ (forward_check ds row col value).2.1) : p.2 ∈ ds p.1 :=
  fcAux_rem_mem value _ ds p h

theorem multiCount_eq_countP (ds : Store) :
    multiCount ds = cells.countP (fun c => decide (1 < (ds c).length)) := by
  rw [multiCount, ← List.countP_eq_length_filter]

theorem nodup_subset_length {l₁ l₂ : List ℕ} (h1 : l₁.Nodup) (h2 : l₁ ⊆ l₂) :
    l₁.length ≤ l₂.length :=
  (h1.subperm h2).length_le

theorem multiExcept_lt {ds : Store} {cell : Cell} (hcell : cell ∈ cells)
    (h : 1 < (ds cell).length) : multiExcept cell ds < multiCount ds := by
  obtain ⟨l₁, l₂, hsplit⟩ := List.append_of_mem hcell
  have hnd : cell ∉ l₁ ++ l₂ := by
    have := cells_nodup
    rw [hsplit] at this
    exact (List.nodup_cons.mp (List.nodup_middle.mp this)).1
  rw [multiExcept, multiCount_eq_countP, hsplit]
  rw [List.countP_append, List.countP_append, List.countP_cons, List.countP_cons]
  have hp : decide (1 < (ds cell).length) = true := by simpa using h
  have hq : decide (cell ≠ cell ∧ 1 < (ds cell).length) = false := by simp
  have h1 : l₁.countP (fun c => decide (c ≠ cell ∧ 1 < (ds c).length)) ≤
      l₁.countP (fun c => decide (1 < (ds c).length)) := by
    apply List.countP_mono_left
    intro x _ hx
    simp only [decide_eq_true_eq] at hx ⊢
    exact hx.2
  have h2 : l₂.countP (fun c => decide (c ≠ cell ∧ 1 < (ds c).length)) ≤
      l₂.countP (fun c => decide (1 < (ds c).length)) := by
    apply List.countP_mono_left
    intro x _ hx
    simp only [decide_eq_true_eq] at hx ⊢
    exact hx.2
  rw [hp, hq]
  simp only [if_true, Bool.false_eq_true, if_false]
  omega

theorem multiCount_le_except {s2 ds0 : Store} {cell : Cell}
    (h : ∀ c ∈ cells, 1 < (s2 c).length → c ≠ cell ∧ 1 < (ds0 c).length) :
    multiCount s2 ≤ multiExcept cell ds0 := by
  rw [multiCount_eq_countP, multiExcept]
  apply List.countP_mono_left
  intro x hx hpx
  simp only [decide_eq_true_eq] at hpx ⊢
  exact h x hx hpx

theorem fc_untouched (ds : Store) (row col value : ℕ) {c : Cell}
    (h : c ∉ neighbors (row, col)) : (forward_check ds row col value).2.2 c = ds c :=
  fcAux_untouched value _ ds c h

theorem fc_true_ne {ds : Store} {row col value : ℕ}
    (hok : (forward_check ds row col value).1 = true) :
    ∀ c : Cell, ds c ≠ [] → (forward_check ds row col value).2.2 c ≠ [] :=
  fcAux_true_ne value _ ds hok

theorem fc_ne_or_rem (ds : Store) (row col value : ℕ) (c : Cell) (h : ds c ≠ []) :
    (forward_check ds row col value).2.2 c ≠ [] ∨
      (c, value) ∈ (forward_check ds row col value).2.1 :=
  fcAux_ne_or_rem value _ ds c h

/-! ### The search preserves well-formedness, shrinks domains, keeps them
non-empty, and reports success only on full singleton assignment -/

theorem btLoop_package
    (rec : Store → Option (Bool × Store))
    (hrec : ∀ s r s', rec s = some (r, s') → WF s →
      subStore s' s ∧ WF s' ∧ (allNE s → allNE s') ∧ (r = true → allNE s → allSingleton s'))
    (cell : Cell) (hcell : cell ∈ cells) (ds0 : Store) :
    ∀ (vals : List ℕ) (ds : Store), (∀ v ∈ vals, v ∈ ds0 cell) → subStore ds ds0 → WF ds →
      ∀ r s', btLoop rec cell vals ds = some (r, s') →
        subStore s' ds0 ∧ WF s' ∧ (allNE ds → allNE s') ∧
          (r = true → allNE ds → allSingleton s') := by
  intro vals
  induction vals with
  | nil =>
    intro ds hv hsub hwf r s' h
    simp only [btLoop, Option.some.injEq, Prod.mk.injEq] at h
    rw [← h.2, ← h.1]
    exact ⟨hsub, hwf, fun hne => hne, fun hr => absurd hr (by simp)⟩
  | cons v rest ih =>
    intro ds hv hsub hwf r s' h
    by_cases hval : is_valid ds cell.1 cell.2 v = true
    · simp only [btLoop] at h
      rw [if_pos hval] at h
      have hv0 : v ∈ ds0 cell := hv v (List.mem_cons_self _ _)
      have hrests : ∀ w ∈ rest, w ∈ ds0 cell := fun w hw => hv w (List.mem_cons_of_mem _ hw)
      have hs1sub : subStore (setD ds cell [v]) ds0 := by
        intro c w hw
        by_cases hc : c = cell
        · subst c
          rw [setD_same] at hw
          rw [List.mem_singleton.mp hw]
          exact hv0
        · rw [setD_other ds _ hc] at hw
          exact hsub c w hw
      have hs1wf : WF (setD ds cell [v]) := by
        intro c hc
        by_cases hcc : c = cell
        · subst c; rw [setD_same]; exact List.nodup_singleton v
        · rw [setD_other ds _ hcc]; exact hwf c hc
      have hs1ne : allNE ds → allNE (setD ds cell [v]) := by
        intro hne c hc
        by_cases hcc : c = cell
        · subst c; rw [setD_same]; simp
        · rw [setD_other ds _ hcc]; exact hne c hc
      have hs2sub : subStore (forward_check (setD ds cell [v]) cell.1 cell.2 v).2.2 ds0 :=
        subStore_trans (fc_subStore _ _ _ _) hs1sub
      have hs2wf : WF (forward_check (setD ds cell [v]) cell.1 cell.2 v).2.2 :=
        fun c hc => fc_nodup _ _ _ _ c (hs1wf c hc)
      have hs2cell : (forward_check (setD ds cell [v]) cell.1 cell.2 v).2.2 cell = [v] := by
        rw [fc_untouched _ _ _ _ (not_mem_neighbors_self cell)]
        exact setD_same ds cell [v]
      have hremsub : ∀ c w, (c, w) ∈ (forward_check (setD ds cell [v]) cell.1 cell.2 v).2.1 →
          w ∈ ds0 c := by
        intro c w hcw
        have h1 := fc_rem_mem hcw
        have h2 := fc_rem_cells hcw
        have hcn : c ≠ cell := by
          have := neighbors_ne h2.1
          simpa using this
        rw [setD_other ds _ hcn] at h1
        exact hsub c w h1
      by_cases hok : (forward_check (setD ds cell [v]) cell.1 cell.2 v).1 = true
      · rw [if_pos hok] at h
        rcases hr3 : rec (forward_check (setD ds cell [v]) cell.1 cell.2 v).2.2
          with _ | ⟨r3, s3⟩
        · rw [hr3] at h; simp at h
        · rw [hr3] at h
          obtain ⟨h3sub, h3wf, h3ne, h3sing⟩ := hrec _ _ _ hr3 hs2wf
          have hs2ne : allNE ds → allNE (forward_check (setD ds cell [v]) cell.1 cell.2 v).2.2 :=
            fun hne c hc => fc_true_ne hok c (hs1ne hne c hc)
          cases r3 with
          | true =>
            simp only [Option.some.injEq, Prod.mk.injEq] at h
            rw [← h.2, ← h.1]
            refine ⟨subStore_trans h3sub hs2sub, h3wf, fun hne => h3ne (hs2ne hne), ?_⟩
            intro _ hne
            exact h3sing rfl (hs2ne hne)
          | false =>
            simp only at h
            have hs4sub : subStore
                (setD s3 cell (listToSet (order_domain_values s3 cell.1 cell.2))) ds0 := by
              intro c w hw
              by_cases hcc : c = cell
              · subst c
                rw [setD_same] at hw
                have := mem_odv.mp (mem_listToSet.mp hw)
                exact hs2sub cell w (h3sub cell w this)
              · rw [setD_other s3 _ hcc] at hw
                exact hs2sub c w (h3sub c w hw)
            have hs5sub : subStore (restore_domains
                (setD s3 cell (listToSet (order_domain_values s3 cell.1 cell.2)))
                (forward_check (setD ds cell [v]) cell.1 cell.2 v).2.1) ds0 := by
              intro c w hw
              rcases restore_mem_inv _ _ c w hw with hmem | hmem
              · exact hs4sub c w hmem
              · exact hremsub c w hmem
            have hs5wf : WF (restore_domains
                (setD s3 cell (listToSet (order_domain_values s3 cell.1 cell.2)))
                (forward_check (setD ds cell [v]) cell.1 cell.2 v).2.1) := by
              intro c hc
              apply restore_nodup
              by_cases hcc : c = cell
              · subst c; rw [setD_same]; exact listToSet_nodup _
              · rw [setD_other s3 _ hcc]; exact h3wf c hc
            have hs5ne : allNE ds → allNE (restore_domains
                (setD s3 cell (listToSet (order_domain_values s3 cell.1 cell.2)))
                (forward_check (setD ds cell [v]) cell.1 cell.2 v).2.1) := by
              intro hne c hc
              apply restore_ne_nil
              left
              by_cases hcc : c = cell
              · subst c
                rw [setD_same]
                exact listToSet_ne_nil (odv_ne_nil (h3ne (hs2ne hne) cell hcell))
              · rw [setD_other s3 _ hcc]
                exact h3ne (hs2ne hne) c hc
            obtain ⟨hA, hB, hC, hD⟩ := ih _ hrests hs5sub hs5wf r s' h
            exact ⟨hA, hB, fun hne => hC (hs5ne hne), fun hr hne => hD hr (hs5ne hne)⟩
      · rw [if_neg hok] at h
        have hs4sub : subStore
            (setD (forward_check (setD ds cell [v]) cell.1 cell.2 v).2.2 cell
              (listToSet (order_domain_values
                (forward_check (setD ds cell [v]) cell.1 cell.2 v).2.2 cell.1 cell.2))) ds0 := by
          intro c w hw
          by_cases hcc : c = cell
          · subst c
            rw [setD_same] at hw
            have := mem_odv.mp (mem_listToSet.mp hw)
            exact hs2sub cell w this
          · rw [setD_other _ _ hcc] at hw
            exact hs2sub c w hw
        have hs5sub : subStore (restore_domains
            (setD (forward_check (setD ds cell [v]) cell.1 cell.2 v).2.2 cell
              (listToSet (order_domain_values
                (forward_check (setD ds cell [v]) cell.1 cell.2 v).2.2 cell.1 cell.2)))
            (forward_check (setD ds cell [v]) cell.1 cell.2 v).2.1) ds0 := by
          intro c w hw
          rcases restore_mem_inv _ _ c w hw with hmem | hmem
          · exact hs4sub c w hmem
          · exact hremsub c w hmem
        have hs5wf : WF (restore_domains
            (setD (forward_check (setD ds cell [v]) cell.1 cell.2 v).2.2 cell
              (listToSet (order_domain_values
                (forward_check (setD ds cell [v]) cell.1 cell.2 v).2.2 cell.1 cell.2)))
            (forward_check (setD ds cell [v]) cell.1 cell.2 v).2.1) := by
          intro c hc
          apply restore_nodup
          by_cases hcc : c = cell
          · subst c; rw [setD_same]; exact listToSet_nodup _
          · rw [setD_other _ _ hcc]; exact hs2wf c hc
        have hs5ne : allNE ds → allNE (restore_domains
            (setD (forward_check (setD ds cell [v]) cell.1 cell.2 v).2.2 cell
              (listToSet (order_domain_values
                (forward_check (setD ds cell [v]) cell.1 cell.2 v).2.2 cell.1 cell.2)))
            (forward_check (setD ds cell [v]) cell.1 cell.2 v).2.1) := by
          intro hne c hc
          apply restore_ne_nil
          by_cases hcc : c = cell
          · subst c
            left
            rw [setD_same]
            apply listToSet_ne_nil
            apply odv_ne_nil
            rw [hs2cell]
            simp
          · rcases fc_ne_or_rem (setD ds cell [v]) cell.1 cell.2 v c
                (hs1ne hne c hc) with hno | hrem
            · left
              rw [setD_other _ _ hcc]
              exact hno
            · right
              exact ⟨v, hrem⟩
        obtain ⟨hA, hB, hC, hD⟩ := ih _ hrests hs5sub hs5wf r s' h
        exact ⟨hA, hB, fun hne => hC (hs5ne hne), fun hr hne => hD hr (hs5ne hne)⟩
    · simp only [btLoop] at h
      rw [if_neg hval] at h
      exact ih _ (fun w hw => hv w (List.mem_cons_of_mem _ hw)) hsub hwf r s' h

theorem btF_package :
    ∀ (fuel : ℕ) (ds : Store) (r : Bool) (s' : Store),
      backtrackF fuel ds = some (r, s') → WF ds →
        subStore s' ds ∧ WF s' ∧ (allNE ds → allNE s') ∧
          (r = true → allNE ds → allSingleton s') := by
  intro fuel
  induction fuel with
  | zero =>
    intro ds r s' h
    rw [show backtrackF 0 ds = none from rfl] at h
    exact absurd h (by simp)
  | succ n ih =>
    intro ds r s' h hwf
    have hunf : backtrackF (n + 1) ds =
        match find_empty_cell ds with
        | none => some (true, ds)
        | some cell => btLoop (backtrackF n) cell (order_domain_values ds cell.1 cell.2) ds :=
      rfl
    rw [hunf] at h
    rcases hfec : find_empty_cell ds with _ | cell
    · rw [hfec] at h
      simp only [Option.some.injEq, Prod.mk.injEq] at h
      rw [← h.2, ← h.1]
      refine ⟨subStore_refl ds, hwf, fun hne => hne, ?_⟩
      intro _ hne c hc
      have h1 := find_empty_cell_none_iff.mp hfec c hc
      have h2 := hne c hc
      have h3 : (ds c).length ≠ 0 := fun h0 => h2 (List.length_eq_zero.mp h0)
      omega
    · rw [hfec] at h
      simp only at h
      obtain ⟨hcellmem, _⟩ := find_empty_cell_some_mem hfec
      exact btLoop_package (backtrackF n) (fun s r2 s2 he hw => ih s r2 s2 he hw)
        cell hcellmem ds (order_domain_values ds cell.1 cell.2) ds
        (fun v hv => mem_odv.mp hv) (subStore_refl ds) hwf r s' h

/-! ### Search termination -/

theorem btLoop_isSome (n : ℕ) (cell : Cell) (hcell : cell ∈ cells) (ds0 : Store)
    (hmc : multiCount ds0 ≤ n) (hcm : 1 < (ds0 cell).length)
    (IH : ∀ s : Store, WF s → multiCount s < n → (backtrackF n s).isSome = true) :
    ∀ (vals : List ℕ) (ds : Store), (∀ v ∈ vals, v ∈ ds0 cell) → subStore ds ds0 → WF ds →
      (btLoop (backtrackF n) cell vals ds).isSome = true := by
  intro vals
  induction vals with
  | nil => intro ds _ _ _; simp [btLoop]
  | cons v rest ih =>
    intro ds hv hsub hwf
    by_cases hval : is_valid ds cell.1 cell.2 v = true
    · have hv0 : v ∈ ds0 cell := hv v (List.mem_cons_self _ _)
      have hrests : ∀ w ∈ rest, w ∈ ds0 cell := fun w hw => hv w (List.mem_cons_of_mem _ hw)
      have hs1sub : subStore (setD ds cell [v]) ds0 := by
        intro c w hw
        by_cases hc : c = cell
        · subst c
          rw [setD_same] at hw
          rw [List.mem_singleton.mp hw]
          exact hv0
        · rw [setD_other ds _ hc] at hw
          exact hsub c w hw
      have hs1wf : WF (setD ds cell [v]) := by
        intro c hc
        by_cases hcc : c = cell
        · subst c; rw [setD_same]; exact List.nodup_singleton v
        · rw [setD_other ds _ hcc]; exact hwf c hc
      have hs2sub : subStore (forward_check (setD ds cell [v]) cell.1 cell.2 v).2.2 ds0 :=
        subStore_trans (fc_subStore _ _ _ _) hs1sub
      have hs2wf : WF (forward_check (setD ds cell [v]) cell.1 cell.2 v).2.2 :=
        fun c hc => fc_nodup _ _ _ _ c (hs1wf c hc)
      have hs2cell : (forward_check (setD ds cell [v]) cell.1 cell.2 v).2.2 cell = [v] := by
        rw [fc_untouched _ _ _ _ (not_mem_neighbors_self cell)]
        exact setD_same ds cell [v]
      have hremsub : ∀ c w, (c, w) ∈ (forward_check (setD ds cell [v]) cell.1 cell.2 v).2.1 →
          w ∈ ds0 c := by
        intro c w hcw
        have h1 := fc_rem_mem hcw
        have h2 := fc_rem_cells hcw
        have hcn : c ≠ cell := by
          have := neighbors_ne h2.1
          simpa using this
        rw [setD_other ds _ hcn] at h1
        exact hsub c w h1
      have hs2mc : multiCount (forward_check (setD ds cell [v]) cell.1 cell.2 v).2.2 < n := by
        have hle : multiCount (forward_check (setD ds cell [v]) cell.1 cell.2 v).2.2 ≤
            multiExcept cell ds0 := by
          apply multiCount_le_except
          intro c hc hmulti
          by_cases hcc : c = cell
          · subst c
            rw [hs2cell] at hmulti
            simp at hmulti
          · refine ⟨hcc, ?_⟩
            have hlen := nodup_subset_length (hs2wf c hc) (fun w hw => hs2sub c w hw)
            omega
        have hlt := multiExcept_lt hcell hcm
        omega
      by_cases hok : (forward_check (setD ds cell [v]) cell.1 cell.2 v).1 = true
      · have hsome := IH _ hs2wf hs2mc
        obtain ⟨⟨r3, s3⟩, hr3⟩ := Option.isSome_iff_exists.mp hsome
        simp only [btLoop]
        rw [if_pos hval, if_pos hok, hr3]
        obtain ⟨h3sub, h3wf, _, _⟩ := btF_package n _ _ _ hr3 hs2wf
        cases r3 with
        | true => simp
        | false =>
          simp only
          have hs4sub : subStore
              (setD s3 cell (listToSet (order_domain_values s3 cell.1 cell.2))) ds0 := by
            intro c w hw
            by_cases hcc : c = cell
            · subst c
              rw [setD_same] at hw
              have := mem_odv.mp (mem_listToSet.mp hw)
              exact hs2sub cell w (h3sub cell w this)
            · rw [setD_other s3 _ hcc] at hw
              exact hs2sub c w (h3sub c w hw)
          have hs5sub : subStore (restore_domains
              (setD s3 cell (listToSet (order_domain_values s3 cell.1 cell.2)))
              (forward_check (setD ds cell [v]) cell.1 cell.2 v).2.1) ds0 := by
            intro c w hw
            rcases restore_mem_inv _ _ c w hw with hmem | hmem
            · exact hs4sub c w hmem
            · exact hremsub c w hmem
          have hs5wf : WF (restore_domains
              (setD s3 cell (listToSet (order_domain_values s3 cell.1 cell.2)))
              (forward_check (setD ds cell [v]) cell.1 cell.2 v).2.1) := by
            intro c hc
            apply restore_nodup
            by_cases hcc : c = cell
            · subst c; rw [setD_same]; exact listToSet_nodup _
            · rw [setD_other s3 _ hcc]; exact h3wf c hc
          exact ih _ hrests hs5sub hs5wf
      · simp only [btLoop]
        rw [if_pos hval, if_neg hok]
        have hs4sub : subStore
            (setD (forward_check (setD ds cell [v]) cell.1 cell.2 v).2.2 cell
              (listToSet (order_domain_values
                (forward_check (setD ds cell [v]) cell.1 cell.2 v).2.2 cell.1 cell.2))) ds0 := by
          intro c w hw
          by_cases hcc : c = cell
          · subst c
            rw [setD_same] at hw
            have := mem_odv.mp (mem_listToSet.mp hw)
            exact hs2sub cell w this
          · rw [setD_other _ _ hcc] at hw
            exact hs2sub c w hw
        have hs5sub : subStore (restore_domains
            (setD (forward_check (setD ds cell [v]) cell.1 cell.2 v).2.2 cell
              (listToSet (order_domain_values
                (forward_check (setD ds cell [v]) cell.1 cell.2 v).2.2 cell.1 cell.2)))
            (forward_check (setD ds cell [v]) cell.1 cell.2 v).2.1) ds0 := by
          intro c w hw
          rcases restore_mem_inv _ _ c w hw with hmem | hmem
          · exact hs4sub c w hmem
          · exact hremsub c w hmem
        have hs5wf : WF (restore_domains
            (setD (forward_check (setD ds cell [v]) cell.1 cell.2 v).2.2 cell
              (listToSet (order_domain_values
                (forward_check (setD ds cell [v]) cell.1 cell.2 v).2.2 cell.1 cell.2)))
            (forward_check (setD ds cell [v]) cell.1 cell.2 v).2.1) := by
          intro c hc
          apply restore_nodup
          by_cases hcc : c = cell
          · subst c; rw [setD_same]; exact listToSet_nodup _
          · rw [setD_other _ _ hcc]; exact hs2wf c hc
        exact ih _ hrests hs5sub hs5wf
    · simp only [btLoop]
      rw [if_neg hval]
      exact ih _ (fun w hw => hv w (List.mem_cons_of_mem _ hw)) hsub hwf

theorem btF_isSome :
    ∀ (n : ℕ) (ds : Store), WF ds → multiCount ds < n → (backtrackF n ds).isSome = true := by
  intro n
  induction n with
  | zero => intro ds _ h; omega
  | succ n ihn =>
    intro ds hwf hmc
    have hunf : backtrackF (n + 1) ds =
        match find_empty_cell ds with
        | none => some (true, ds)
        | some cell => btLoop (backtrackF n) cell (order_domain_values ds cell.1 cell.2) ds :=
      rfl
    rw [hunf]
    rcases hfec : find_empty_cell ds with _ | cell
    · simp
    · simp only
      obtain ⟨hcellmem, hcm⟩ := find_empty_cell_some_mem hfec
      exact btLoop_isSome n cell hcellmem ds (by omega) hcm ihn
        (order_domain_values ds cell.1 cell.2) ds
        (fun v hv => mem_odv.mp hv) (subStore_refl ds) hwf

theorem backtrack_isSome {ds : Store} (hwf : WF ds) : (backtrack ds).isSome = true := by
  unfold backtrack btFuel
  exact btF_isSome _ ds hwf (by omega)

/-! ### AC-3 preserves set representation (no duplicates) -/

theorem ac3F_nodup :
    ∀ (fuel : ℕ) (q : List (Cell × Cell)) (ds : Store) (r : Bool) (ds' : Store),
      ac3F fuel q ds = some (r, ds') → ∀ c : Cell, (ds c).Nodup → (ds' c).Nodup := by
  intro fuel
  induction fuel with
  | zero => intro q ds r ds' h; exact absurd h (by simp [ac3F])
  | succ n ih =>
    intro q ds r ds' h
    cases q with
    | nil =>
      simp only [ac3F, Option.some.injEq, Prod.mk.injEq] at h
      rw [← h.2]
      exact fun c hc => hc
    | cons p q' =>
      obtain ⟨xi, xj⟩ := p
      rw [ac3F] at h
      have hrev : ∀ c : Cell, (ds c).Nodup → ((revise ds xi xj).2 c).Nodup := by
        intro c hc
        by_cases hcx : c = xi
        · subst c
          rw [revise_snd_xi]
          exact reviseList_nodup hc
        · rw [revise_snd_other ds xi xj hcx]
          exact hc
      by_cases hch : (revise ds xi xj).1 = true
      · rw [if_pos hch] at h
        by_cases hemp : (revise ds xi xj).2 xi = []
        · rw [if_pos hemp] at h
          simp only [Option.some.injEq, Prod.mk.injEq] at h
          rw [← h.2]
          exact hrev
        · rw [if_neg hemp] at h
          exact fun c hc => ih _ _ _ _ h c (hrev c hc)
      · rw [if_neg hch] at h
        exact ih _ _ _ _ h

theorem ac3F_quiescent :
    ∀ (fuel : ℕ) (q : List (Cell × Cell)) (ds : Store),
      q.length < fuel →
      (∀ p ∈ q, ¬((ds p.2).length = 1 ∧ ∃ v ∈ ds p.1, v ∈ ds p.2)) →
      ac3F fuel q ds = some (allSingletonB ds, ds) := by
  intro fuel
  induction fuel with
  | zero => intro q ds h _; omega
  | succ n ih =>
    intro q ds hlen hq
    cases q with
    | nil => rfl
    | cons p q' =>
      obtain ⟨xi, xj⟩ := p
      have hch : (revise ds xi xj).1 = false := by
        cases hb : (revise ds xi xj).1
        · rfl
        · exact absurd ((revise_fst_iff ds xi xj).mp hb) (hq (xi, xj) (List.mem_cons_self _ _))
      rw [ac3F, if_neg (by rw [hch]; exact Bool.false_ne_true)]
      apply ih
      · simp only [List.length_cons] at hlen
        omega
      · exact fun p hp => hq p (List.mem_cons_of_mem _ hp)

/-- A store in which no arc can revise (e.g. already solved, or the blank
grid) passes through the whole AC-3 worklist unchanged. -/
theorem ac3_quiescent {ds : Store}
    (h : ∀ a ∈ cells, ∀ b ∈ neighbors a, ¬((ds b).length = 1 ∧ ∃ v ∈ ds a, v ∈ ds b)) :
    ac3 ds = some (allSingletonB ds, ds) := by
  rw [ac3]
  apply ac3F_quiescent
  · unfold ac3Fuel
    omega
  · intro p hp
    obtain ⟨h1, h2⟩ := WFq_get_all_arcs p hp
    exact h p.1 h1 p.2 h2

theorem eq_singleton_iff {l : List ℕ} {v : ℕ} : l = [v] ↔ l.length = 1 ∧ v ∈ l := by
  constructor
  · rintro rfl
    exact ⟨rfl, List.mem_singleton_self v⟩
  · rintro ⟨h1, h2⟩
    obtain ⟨u, rfl⟩ := List.length_eq_one.mp h1
    rw [List.mem_singleton.mp h2]

theorem fcAux_false_empty (value : ℕ) :
    ∀ (l : List Cell) (ds : Store),
      (fcAux value l ds).1 = false →
        ∃ p ∈ (fcAux value l ds).2.1, (fcAux value l ds).2.2 p.1 = [] := by
  intro l
  induction l with
  | nil => intro ds h; exact absurd h (by simp [fcAux])
  | cons n rest ih =>
    intro ds h
    by_cases hmem : value ∈ ds n
    · by_cases hemp : (ds n).erase value = []
      · simp only [fcAux, if_pos hmem, if_pos hemp]
        refine ⟨(n, value), List.mem_cons_self _ _, ?_⟩
        rw [setD_same]
        exact hemp
      · simp only [fcAux, if_pos hmem, if_neg hemp] at h ⊢
        obtain ⟨p, hp, hpe⟩ := ih _ h
        exact ⟨p, List.mem_cons_of_mem _ hp, hpe⟩
    · simp only [fcAux, if_neg hmem] at h ⊢
      exact ih _ h

/-! ## Claim theorems -/

/-- C2: for every ordered pair of cells, `revise` removes a value v from the
domain of Xi exactly when the domain of Xj is the singleton {v}; it returns
true iff the domain of Xi changed; whenever the domain of Xj has size at
least 2 it returns false and leaves the whole store unchanged, regardless of
overlap; and it never touches any cell other than Xi. -/
theorem claim_C2_revise (ds : Store) (xi xj : Cell) :
    (∀ v ∈ ds xi, (v ∉ (revise ds xi xj).2 xi ↔ ds xj = [v])) ∧
    ((revise ds xi xj).1 = true ↔ (revise ds xi xj).2 xi ≠ ds xi) ∧
    (2 ≤ (ds xj).length → (revise ds xi xj).1 = false ∧ (revise ds xi xj).2 = ds) ∧
    (∀ c, c ≠ xi → (revise ds xi xj).2 c = ds c) := by
  refine ⟨?_, ?_, ?_, fun c hc => revise_snd_other ds xi xj hc⟩
  · intro v hv
    rw [mem_revise_xi, eq_singleton_iff]
    constructor
    · intro hni
      by_contra hc
      exact hni ⟨hv, hc⟩
    · intro hc hmem
      exact hmem.2 hc
  · constructor
    · intro hch
      have := reviseList_changed_length hch
      rw [← revise_snd_xi ds xi xj] at this
      intro he
      rw [he] at this
      omega
    · intro hne
      by_contra hch
      have hf : (revise ds xi xj).1 = false := by
        cases hb : (revise ds xi xj).1
        · rfl
        · exact absurd hb hch
      have := reviseList_not_changed hf
      rw [← revise_snd_xi ds xi xj] at this
      exact hne this
  · intro h2
    have hf : (revise ds xi xj).1 = false := by
      cases hb : (revise ds xi xj).1
      · rfl
      · obtain ⟨h1, _⟩ := (revise_fst_iff ds xi xj).mp hb
        omega
    exact ⟨hf, revise_not_changed_store ds xi xj hf⟩

/-- Witness for C2 at a concrete store: the blank grid, where the neighbor
domain has size 9, so revise changes nothing. -/
theorem claim_C2_revise_witness :
    2 ≤ (fullStore (0, 1)).length ∧
    (revise fullStore (0, 0) (0, 1)).1 = false ∧
    (revise fullStore (0, 0) (0, 1)).2 = fullStore := by
  have h := (claim_C2_revise fullStore (0, 0) (0, 1)).2.2.1 (by decide)
  exact ⟨by decide, h.1, h.2⟩

/-- C9: a single call to revise never adds a value to any domain, never
increases any domain size, and never changes any domain other than that of
Xi; over an entire run of ac3, every final domain is a subset of the initial
one and (for set stores) domain sizes are non-increasing. -/
theorem claim_C9_monotonic :
    (∀ (ds : Store) (xi xj : Cell) (c : Cell), c ≠ xi → (revise ds xi xj).2 c = ds c) ∧
    (∀ (ds : Store) (xi xj : Cell) (c : Cell) (v : ℕ),
      v ∈ (revise ds xi xj).2 c → v ∈ ds c) ∧
    (∀ (ds : Store) (xi xj : Cell) (c : Cell),
      ((revise ds xi xj).2 c).length ≤ (ds c).length) ∧
    (∀ (ds ds' : Store) (r : Bool), ac3 ds = some (r, ds') →
      subStore ds' ds ∧ (WF ds → ∀ c ∈ cells, (ds' c).length ≤ (ds c).length)) := by
  refine ⟨fun ds xi xj c hc => revise_snd_other ds xi xj hc,
    fun ds xi xj c v hv => revise_subStore ds xi xj c v hv, ?_, ?_⟩
  · intro ds xi xj c
    by_cases hc : c = xi
    · subst c
      rw [revise_snd_xi, reviseList_snd]
      by_cases h1 : (ds xj).length = 1
      · rw [if_pos h1]
        exact List.length_filter_le _ _
      · rw [if_neg h1]
    · rw [revise_snd_other ds xi xj hc]
  · intro ds ds' r h
    have hsub : subStore ds' ds := ac3F_subStore _ _ _ _ _ h
    refine ⟨hsub, ?_⟩
    intro hwf c hc
    exact nodup_subset_length (ac3F_nodup _ _ _ _ _ h c (hwf c hc)) (fun v hv => hsub c v hv)

/-- Witness for C9 at the all-ones store, where ac3 empties the domain of
cell (0,0) and stops. -/
theorem claim_C9_monotonic_witness :
    ac3 allOnes = some (false, setD allOnes (0, 0) []) ∧ WF allOnes ∧
    subStore (setD allOnes (0, 0) []) allOnes ∧
    (∀ c ∈ cells, ((setD allOnes (0, 0) [] : Store) c).length ≤ (allOnes c).length) := by
  have h : ac3 allOnes = some (false, setD allOnes (0, 0) []) := rfl
  have hwf : WF allOnes := by decide
  obtain ⟨hsub, hlen⟩ := claim_C9_monotonic.2.2.2 allOnes (setD allOnes (0, 0) []) false h
  exact ⟨h, hwf, hsub, hlen hwf⟩

/-- C6: `find_empty_cell` returns none exactly when no cell has domain size
greater than 1; otherwise it returns the first cell in row-major scan order
achieving the minimum such size: the returned cell is a grid cell with size
greater than 1, its size is minimal among all multi-value cells, and every
multi-value cell strictly earlier in scan order has strictly larger size.
In particular, on a store whose only size-2 cell is (4,4) with every other
cell of size at least 3 or at most 1, it returns (4,4). -/
theorem claim_C6_mrv :
    (∀ ds : Store,
      (find_empty_cell ds = none ↔ ∀ c ∈ cells, (ds c).length ≤ 1) ∧
      (∀ A, find_empty_cell ds = some A →
        A ∈ cells ∧ 1 < (ds A).length ∧
        (∀ B ∈ cells, 1 < (ds B).length → (ds A).length ≤ (ds B).length) ∧
        (∃ l₁ l₂, cells = l₁ ++ A :: l₂ ∧
          ∀ B ∈ l₁, 1 < (ds B).length → (ds A).length < (ds B).length))) ∧
    find_empty_cell c6Store = some (4, 4) := by
  constructor
  · intro ds
    refine ⟨find_empty_cell_none_iff, ?_⟩
    intro A hA
    obtain ⟨l₁, l₂, hsplit, hm1, h₁, h₂⟩ := find_empty_cell_some hA
    refine ⟨hsplit ▸ List.mem_append_cons_self, hm1, ?_, l₁, l₂, hsplit, h₁⟩
    intro B hB hBm
    rw [hsplit] at hB
    rcases List.mem_append.mp hB with hB1 | hB2
    · exact le_of_lt (h₁ B hB1 hBm)
    · rcases List.mem_cons.mp hB2 with rfl | hB2
      · exact le_refl _
      · exact h₂ B hB2 hBm
  · decide

/-- Witness for C6: on the solved store every domain is a singleton, so the
characterization yields none. -/
theorem claim_C6_mrv_witness : find_empty_cell solvedStore = none :=
  (claim_C6_mrv.1 solvedStore).1.mpr (by decide)

/-- C7: `order_domain_values` returns exactly the candidate values of the
cell (a permutation of its domain), sorted ascending by the constraint
score of `count_constraints`, which counts the neighbors whose domain has
size greater than 1 and contains the value; in particular, on a store where
the cell (0,0) has candidates {3,7} with 3 in four such neighbor domains
and 7 in one, it returns [7, 3]. -/
theorem claim_C7_lcv :
    (∀ (ds : Store) (row col : ℕ),
      (order_domain_values ds row col).Perm (ds (row, col)) ∧
      (order_domain_values ds row col).Pairwise
        (fun a b => count_constraints ds row col a ≤ count_constraints ds row col b) ∧
      (∀ v, count_constraints ds row col v =
        ((neighbors (row, col)).filter
          (fun nb => decide (1 < (ds nb).length ∧ v ∈ ds nb))).length)) ∧
    order_domain_values c7Store 0 0 = [7, 3] ∧
    count_constraints c7Store 0 0 3 = 4 ∧ count_constraints c7Store 0 0 7 = 1 := by
  refine ⟨?_, by decide, by decide, by decide⟩
  intro ds row col
  exact ⟨odv_perm ds row col, odv_pairwise_score ds row col,
    fun v => count_constraints_eq ds row col v⟩

/-- Witness for C7: the LCV ordering at the concrete store. -/
theorem claim_C7_lcv_witness :
    order_domain_values c7Store 0 0 = [7, 3] := claim_C7_lcv.2.1

/-- C5: forward checking followed by restoring its removal record is the
identity on every (set-represented) domain store, in both the successful
case and the early-exit case; moreover when forward check reports failure,
some recorded neighbor domain was left empty (the scan stopped there). -/
theorem claim_C5_roundtrip :
    ∀ ds : Store, WFS ds → ∀ row col value : ℕ,
      restore_domains (forward_check ds row col value).2.2
        (forward_check ds row col value).2.1 = ds ∧
      ((forward_check ds row col value).1 = false →
        ∃ p ∈ (forward_check ds row col value).2.1,
          (forward_check ds row col value).2.2 p.1 = []) := by
  intro ds hws row col value
  exact ⟨forward_check_roundtrip hws row col value,
    fun hf => fcAux_false_empty value _ ds hf⟩

/-- Witness for C5 on the blank grid. -/
theorem claim_C5_roundtrip_witness :
    WFS fullStore ∧
    restore_domains (forward_check fullStore 0 0 5).2.2
      (forward_check fullStore 0 0 5).2.1 = fullStore := by
  have hws : WFS fullStore := by decide
  exact ⟨hws, (claim_C5_roundtrip fullStore hws 0 0 5).1⟩

/-- C3: when a tentative assignment fails, the failed cell is reset from its
current, already-singleton domain via `order_domain_values` (the set of the
ordering of a singleton domain is that same singleton), not restored to the
original candidate set; concretely, on `c3Store` the search selects (0,0)
with candidates {1,2}, tries 1, fails, never reaches the point of restoring
{1,2}, and returns failure with the domain of (0,0) reduced to {1} — the
untried alternative 2 is gone. -/
theorem claim_C3_domain_reset :
    (∀ (ds : Store) (row col v : ℕ), ds (row, col) = [v] →
      listToSet (order_domain_values ds row col) = [v]) ∧
    c3Store (0, 0) = [1, 2] ∧
    (backtrack c3Store).map (fun p => (p.1, p.2 (0, 0))) = some (false, [1]) := by
  refine ⟨?_, by decide, by decide⟩
  intro ds row col v h
  have hperm : (order_domain_values ds row col).Perm [v] := by
    rw [← h]
    exact odv_perm ds row col
  rw [List.perm_singleton.mp hperm]
  rfl

/-- Witness for C3: the reset of a singleton domain on the all-ones store. -/
theorem claim_C3_domain_reset_witness :
    listToSet (order_domain_values allOnes 0 0) = [1] :=
  claim_C3_domain_reset.1 allOnes 0 0 1 rfl

/-- C10: the search preserves non-emptiness: on any set-represented store
whose 81 domains are all non-empty, whenever backtrack returns — with
success or failure — all 81 domains are again non-empty. -/
theorem claim_C10_nonempty :
    ∀ (ds : Store) (r : Bool) (ds' : Store), WF ds → allNE ds →
      backtrack ds = some (r, ds') → allNE ds' := by
  intro ds r ds' hwf hne h
  exact (btF_package _ _ _ _ h hwf).2.2.1 hne

/-- Witness for C10 on the all-ones store. -/
theorem claim_C10_nonempty_witness :
    WF allOnes ∧ allNE allOnes ∧ backtrack allOnes = some (true, allOnes) ∧ allNE allOnes :=
  ⟨by decide, by decide, rfl,
    claim_C10_nonempty allOnes true allOnes (by decide) (by decide) rfl⟩

/-- Counterexample to C1 as stated: the all-ones store is a §6 store (all 81
cells fixed, all domains singleton), yet backtrack reports success on it
immediately — `find_empty_cell` sees no multi-value cell — and the resulting
digit grid has the digit 1 nine times in row 0, so it is not valid.
Backtrack success does not imply a valid grid. -/
theorem claim_C1_counterexample :
    (∀ c ∈ cells, (allOnes c).length = 1) ∧
    backtrack allOnes = some (true, allOnes) ∧
    ¬ validAssign (digitOf allOnes) :=
  ⟨by decide, rfl, by decide⟩

/-- C1 (amended): if ac3 reports success on a store with digit candidates
1–9, every domain is a singleton and the digit grid is valid (every row,
column and box holds each digit exactly once).  For backtrack, success on a
well-formed store with non-empty domains implies every domain is a
singleton — but not validity, which the counterexample refutes.  When
`find_empty_cell` returns none on a non-empty store, every domain is
already a singleton. -/
theorem claim_C1_soundness :
    (∀ ds ds' : Store, inDigits ds → ac3 ds = some (true, ds') →
      allSingleton ds' ∧ validAssign (digitOf ds')) ∧
    (∀ ds ds' : Store, WF ds → allNE ds → backtrack ds = some (true, ds') →
      allSingleton ds') ∧
    (∀ ds : Store, allNE ds → find_empty_cell ds = none → allSingleton ds) := by
  refine ⟨fun ds ds' hr h => ac3_true_sound hr h, ?_, ?_⟩
  · intro ds ds' hwf hne h
    exact (btF_package _ _ _ _ h hwf).2.2.2 rfl hne
  · intro ds hne hfec c hc
    have h1 := find_empty_cell_none_iff.mp hfec c hc
    have h2 := hne c hc
    have h3 : (ds c).length ≠ 0 := fun h0 => h2 (List.length_eq_zero.mp h0)
    omega

/-- Witness for C1 (amended): ac3 solves the already-solved valid store by
propagation alone and the result is a valid singleton grid; backtrack
succeeds on the all-ones store and the result is all-singleton. -/
theorem claim_C1_soundness_witness :
    inDigits solvedStore ∧ ac3 solvedStore = some (true, solvedStore) ∧
    allSingleton solvedStore ∧ validAssign (digitOf solvedStore) ∧
    WF allOnes ∧ allNE allOnes ∧ backtrack allOnes = some (true, allOnes) ∧
    allSingleton allOnes := by
  have h1 : inDigits solvedStore := by decide
  have h2 : ac3 solvedStore = some (true, solvedStore) := by
    rw [ac3_quiescent (by decide)]
    rw [show allSingletonB solvedStore = true from by decide]
  have h3 := claim_C1_soundness.1 solvedStore solvedStore h1 h2
  have h4 : WF allOnes := by decide
  have h5 : allNE allOnes := by decide
  have h6 : backtrack allOnes = some (true, allOnes) := rfl
  exact ⟨h1, h2, h3.1, h3.2, h4, h5, h6,
    claim_C1_soundness.2.1 allOnes allOnes h4 h5 h6⟩

/-- Counterexample to C4 as stated: ac3 returns a two-valued boolean, not a
tri-state outcome.  The empty-domain failure (all-ones store: the domain of
(0,0) is emptied and ac3 stops at once) and mere incomplete propagation
(the blank grid: nothing is ever pruned, no domain is empty, cell (0,0)
keeps 9 candidates) both return `false` — the same value — so a caller
cannot tell the two outcomes apart from the returned result. -/
theorem claim_C4_counterexample :
    ac3 allOnes = some (false, setD allOnes (0, 0) []) ∧
    ac3 fullStore = some (false, fullStore) ∧
    (setD allOnes (0, 0) [] : Store) (0, 0) = [] ∧
    (∀ c ∈ cells, fullStore c ≠ [] ∧ 1 < (fullStore c).length) := by
  refine ⟨rfl, ?_, rfl, by decide⟩
  rw [ac3_quiescent (by decide)]
  rw [show allSingletonB fullStore = false from by decide]

/-- C4 (amended): the boolean outcome of ac3 is true exactly when every
domain is a singleton at quiescence; both the empty-domain failure and
incomplete propagation return false, and the store mutations persist in
all cases (the returned store is the mutated one). -/
theorem claim_C4_outcome :
    ∀ (ds : Store) (r : Bool) (ds' : Store),
      ac3 ds = some (r, ds') → (r = true ↔ allSingleton ds') :=
  fun _ _ _ h => ac3F_true_iff _ _ _ _ _ WFq_get_all_arcs h

/-- Witness for C4 (amended) at the all-ones store. -/
theorem claim_C4_outcome_witness :
    (false = true ↔ allSingleton (setD allOnes (0, 0) [])) ∧
    ¬ allSingleton (setD allOnes (0, 0) []) :=
  ⟨claim_C4_outcome allOnes false (setD allOnes (0, 0) []) rfl, by decide⟩

/-- Counterexample to the last part of C8: the all-ones store is unsolvable
— no digit assignment drawn from its domains is a valid grid, since cells
(0,0) and (0,1) are both forced to 1 in row 0 — yet the overall pipeline
(ac3, then backtrack on the mutated store) reports success: ac3 empties the
domain of (0,0) and returns false, and backtrack then finds no multi-value
cell and immediately returns true. -/
theorem claim_C8_counterexample :
    (∀ g : Cell → ℕ, (∀ c ∈ cells, g c ∈ allOnes c) → ¬ validAssign g) ∧
    (mainSolve allOnes).map Prod.fst = some true := by
  constructor
  · intro g hg hv
    have h00 : g (0, 0) = 1 := by
      have := hg (0, 0) (by decide)
      simpa [allOnes] using this
    have h01 : g (0, 1) = 1 := by
      have := hg (0, 1) (by decide)
      simpa [allOnes] using this
    have hu : [((0 : ℕ), (0 : ℕ)), (0, 1), (0, 2), (0, 3), (0, 4), (0, 5), (0, 6), (0, 7),
        (0, 8)] ∈ allUnits := by decide
    have hcount := hv _ hu 1 (by decide)
    simp only [List.map] at hcount
    rw [h00, h01] at hcount
    rw [List.count_cons_self, List.count_cons_self] at hcount
    omega
  · rfl

/-- C8 (amended): both functions terminate on every input — ac3 on every
store, backtrack on every set-represented store — so the solver can neither
run forever nor crash; but on an unsolvable input the overall result can be
a spurious success (see the counterexample), not necessarily failure. -/
theorem claim_C8_termination :
    (∀ ds : Store, (ac3 ds).isSome = true) ∧
    (∀ ds : Store, WF ds → (backtrack ds).isSome = true) :=
  ⟨ac3_isSome, fun _ h => backtrack_isSome h⟩

/-- Witness for C8 (amended): termination of the search on the all-ones
store. -/
theorem claim_C8_termination_witness :
    WF allOnes ∧ (backtrack allOnes).isSome = true :=
  ⟨by decide, claim_C8_termination.2 allOnes (by decide)⟩

end AC3
